import Mathlib

/-!
# gu: catalog extraction and link parsing (`cmd/main.go`)

A shallow embedding of the pure part of `cmd/main.go`:

* the regular expressions declared at lines 29-36,
* `download` and `download.Installable` (lines 52-79),
* `extractDownloadLinks` (lines 85-151), with the package-level cursor `cs`
  threaded explicitly through the traversal,
* `fromLink` (lines 153-182), together with models of the Go standard library
  functions it calls (`path.Base`, `url.JoinPath`, `regexp` matching),
* the resolver loop of `main` (lines 354-379),
* `installVersion` (lines 184-250), over an explicit filesystem state and with the
  outcome of the network fetch and the umask of the process as inputs.

Go strings are modelled as Lean strings (sequences of Unicode code points, that is,
valid UTF-8); the algorithms work on their character lists.
-/

namespace Gu

/-! ## Constants (lines 22-25) -/

/-- The sentinel `DefaultDownloadValue`. -/
def DefaultDownloadValue : String := "unknown"

/-- The download host base `GODownloadsURL`. -/
def GODownloadsURL : String := "https://go.dev/dl/"

/-! ## Literal regular expressions (lines 29-36)

`MatchString` of an unanchored pattern that is a literal (or an alternation of
literals) is a substring test. -/

/-- Does `pat` occur somewhere in the character list? -/
def hasSub (pat : List Char) : List Char → Bool
  | [] => pat.isPrefixOf []
  | c :: cs => pat.isPrefixOf (c :: cs) || hasSub pat cs

/-- The pattern `archive`. -/
def isArchive (s : String) : Bool := hasSub "archive".toList s.toList

/-- The pattern `download`. -/
def isDownloadRE (s : String) : Bool := hasSub "download".toList s.toList

/-- The pattern `featured`. -/
def isFeaturedRE (s : String) : Bool := hasSub "featured".toList s.toList

/-- The pattern `\.pkg`. -/
def isPackageRE (s : List Char) : Bool := hasSub ".pkg".toList s

/-- The pattern `unstable`. -/
def isUnstableRE (s : String) : Bool := hasSub "unstable".toList s.toList

/-- The pattern `feature|latest|stable`. -/
def latestRE (s : String) : Bool :=
  hasSub "feature".toList s.toList || hasSub "latest".toList s.toList
    || hasSub "stable".toList s.toList

/-- The pattern `(archive|featured|stable|unstable)`. -/
def sectionRE (s : String) : Bool :=
  hasSub "archive".toList s.toList || hasSub "featured".toList s.toList
    || hasSub "stable".toList s.toList || hasSub "unstable".toList s.toList

/-- Left-to-right replacement of the non-overlapping occurrences of a non-empty literal
`pat` by `rep` (`ReplaceAllString` of a literal pattern).  The counter is the number of
characters of the current occurrence that are still to be skipped. -/
def replaceAllAux (pat rep : List Char) : Nat → List Char → List Char
  | _, [] => []
  | skip + 1, _ :: cs => replaceAllAux pat rep skip cs
  | 0, c :: cs =>
    if pat.isPrefixOf (c :: cs) then rep ++ replaceAllAux pat rep (pat.length - 1) cs
    else c :: replaceAllAux pat rep 0 cs

/-- The call `isPackageRE.ReplaceAllString(url, ".tar.gz")`. -/
def replacePkg (s : List Char) : List Char :=
  replaceAllAux ".pkg".toList ".tar.gz".toList 0 s

/-! ## The Go library function `path.Base` -/

/-- Remove the trailing slashes. -/
def stripTrailingSlashes (s : List Char) : List Char :=
  (s.reverse.dropWhile (fun c => c == '/')).reverse

/-- What follows the last slash (everything, when there is none). -/
def afterLastSlash (s : List Char) : List Char :=
  (s.reverse.takeWhile (fun c => c != '/')).reverse

/-- Go's `path.Base`: the last element of the path; `.` for the empty path and `/` for a
path of slashes only. -/
def pathBase (p : List Char) : List Char :=
  if p = [] then ['.']
  else
    let q := afterLastSlash (stripTrailingSlashes p)
    if q = [] then ['/'] else q

/-! ## The Go library functions `path.Clean` and `path.Join` -/

/-- The elements of a path: the pieces between slashes. -/
def splitSlash : List Char → List (List Char)
  | [] => [[]]
  | c :: cs =>
    if c = '/' then [] :: splitSlash cs
    else
      match splitSlash cs with
      | [] => [[c]]
      | h :: t => (c :: h) :: t

/-- One element of `path.Clean`: empty elements and `.` are dropped, `..` removes the
element before it (at the root it is dropped, at the start of a relative path it is
kept), any other element is appended. -/
def cleanStep (rooted : Bool) (out : List (List Char)) (e : List Char) : List (List Char) :=
  if e = [] ∨ e = ['.'] then out
  else if e = ['.', '.'] then
    match out.getLast? with
    | some t => if t = ['.', '.'] then out ++ [e] else out.dropLast
    | none => if rooted then out else out ++ [e]
  else out ++ [e]

/-- Go's `path.Clean`. -/
def pathClean (p : List Char) : List Char :=
  if p = [] then ['.']
  else
    let rooted := p.head? == some '/'
    let out := (splitSlash p).foldl (cleanStep rooted) []
    if rooted then '/' :: List.intercalate ['/'] out
    else if out = [] then ['.'] else List.intercalate ['/'] out

/-- Go's `path.Join`: the non-empty elements joined by slashes, then cleaned. -/
def pathJoin (elem : List (List Char)) : List Char :=
  let ne := elem.filter (fun e => e != [])
  if ne = [] then [] else pathClean (List.intercalate ['/'] ne)

/-! ## The Go library function `url.JoinPath`, on the base `GODownloadsURL` -/

/-- The UTF-8 bytes of a character. -/
def utf8Bytes (c : Char) : List Nat :=
  let n := c.toNat
  if n < 0x80 then [n]
  else if n < 0x800 then [0xC0 + n / 64, 0x80 + n % 64]
  else if n < 0x10000 then [0xE0 + n / 4096, 0x80 + n / 64 % 64, 0x80 + n % 64]
  else [0xF0 + n / 262144, 0x80 + n / 4096 % 64, 0x80 + n / 64 % 64, 0x80 + n % 64]

/-- The bytes of a string. -/
def toBytes (s : List Char) : List Nat := s.flatMap utf8Bytes

/-- Go's `shouldEscape(c, encodePath)`: letters, digits, `-_.~` and `$&+,/:;=@` are kept,
every other byte is escaped. -/
def shouldEscape (b : Nat) : Bool :=
  if (97 ≤ b ∧ b ≤ 122) ∨ (65 ≤ b ∧ b ≤ 90) ∨ (48 ≤ b ∧ b ≤ 57) then false
  else if b = 45 ∨ b = 95 ∨ b = 46 ∨ b = 126 then false
  else if b = 36 ∨ b = 38 ∨ b = 43 ∨ b = 44 ∨ b = 47 ∨ b = 58 ∨ b = 59 ∨ b = 61
      ∨ b = 64 then false
  else true

/-- The upper-case hexadecimal digit of a value below 16. -/
def hexDigit (n : Nat) : Char := "0123456789ABCDEF".toList.getD n '0'

/-- Go's `escape(s, encodePath)`. -/
def escapePath : List Nat → List Char
  | [] => []
  | b :: bs =>
    if shouldEscape b then '%' :: hexDigit (b / 16) :: hexDigit (b % 16) :: escapePath bs
    else Char.ofNat b :: escapePath bs

/-- Go's `ishex` and `unhex`: the value of a hexadecimal digit. -/
def unhex (b : Nat) : Option Nat :=
  if 48 ≤ b ∧ b ≤ 57 then some (b - 48)
  else if 97 ≤ b ∧ b ≤ 102 then some (b - 97 + 10)
  else if 65 ≤ b ∧ b ≤ 70 then some (b - 65 + 10)
  else none

/-- Go's `unescape(s, encodePath)`: `none` stands for the `EscapeError`. -/
def unescapePath : List Nat → Option (List Nat)
  | [] => some []
  | 37 :: h :: l :: rest =>
    match unhex h, unhex l with
    | some x, some y => (unescapePath rest).map (fun r => (x * 16 + y) :: r)
    | _, _ => none
  | 37 :: _ => none
  | b :: rest => (unescapePath rest).map (fun r => b :: r)

/-- Go's `validEncoded(s, encodePath)`. -/
def validEncoded (bs : List Nat) : Bool :=
  bs.all (fun b =>
    b = 33 ∨ b = 36 ∨ b = 38 ∨ b = 39 ∨ b = 40 ∨ b = 41 ∨ b = 42 ∨ b = 43 ∨ b = 44
      ∨ b = 59 ∨ b = 61 ∨ b = 58 ∨ b = 64 ∨ b = 91 ∨ b = 93 ∨ b = 37
      ∨ shouldEscape b = false)

/-- Scheme and host of `GODownloadsURL`. -/
def baseSchemeHost : List Char := "https://go.dev".toList

/-- Path of `GODownloadsURL`. -/
def basePath : List Char := "/dl/".toList

/-- What `URL.EscapedPath` returns after `URL.setPath(p)` on the parsed base: when `p`
cannot be unescaped, `setPath` fails, `JoinPath` drops the error and the base path
stays; otherwise `Path` is the unescaped `p`, `RawPath` is `p` unless `p` is the default
encoding of `Path`, and `EscapedPath` prefers a valid `RawPath`. -/
def escapedPathAfterSet (p : List Char) : List Char :=
  match unescapePath (toBytes p) with
  | none => basePath
  | some path =>
    let rawPath := if escapePath path = p then [] else p
    if rawPath ≠ [] ∧ validEncoded (toBytes rawPath) then rawPath
    else escapePath path

/-- The call `url.JoinPath(GODownloadsURL, elem)`: join and clean the path, keep one
trailing slash of `elem`, and print the URL. -/
def urlJoinPath (elem : List Char) : List Char :=
  let p := pathJoin [basePath, elem]
  let p := if elem.getLast? = some '/' ∧ p.getLast? ≠ some '/' then p ++ ['/'] else p
  baseSchemeHost ++ escapedPathAfterSet p

/-- Letters, digits and `-`, `_`, `.`, `~`: the unreserved characters of a URL. -/
def isUrlSafe (c : Char) : Bool :=
  (97 ≤ c.toNat ∧ c.toNat ≤ 122) ∨ (65 ≤ c.toNat ∧ c.toNat ≤ 90) ∨
    (48 ≤ c.toNat ∧ c.toNat ≤ 57) ∨ c.toNat = 45 ∨ c.toNat = 95 ∨ c.toNat = 46 ∨
    c.toNat = 126

/-! ## The pattern `platformVersionRE` (line 35)

`\/dl\/go([a-z0-9\.]*)\.(darwin|freebsd|linux|src|windows){1}(\-([a-z0-9]*))?`,
matched with Go's leftmost-first semantics: the leftmost start wins, a star takes as
many characters as the rest of the pattern allows, an optional group is taken when it
can be. A match is the list of its five submatches: the whole match and groups 1-4. -/

/-- The class `[a-z0-9\.]`. -/
def isVerChar (c : Char) : Bool :=
  (97 ≤ c.toNat ∧ c.toNat ≤ 122) ∨ (48 ≤ c.toNat ∧ c.toNat ≤ 57) ∨ c = '.'

/-- The class `[a-z0-9]`. -/
def isArchChar (c : Char) : Bool :=
  (97 ≤ c.toNat ∧ c.toNat ≤ 122) ∨ (48 ≤ c.toNat ∧ c.toNat ≤ 57)

/-- The alternatives of group 2, in the order of the pattern. -/
def osNames : List (List Char) :=
  ["darwin".toList, "freebsd".toList, "linux".toList, "src".toList, "windows".toList]

/-- The part `\.(darwin|freebsd|linux|src|windows){1}(\-([a-z0-9]*))?` at the start of
the input: groups 2, 3 and 4 (groups that do not take part are empty). -/
def matchOsArch : List Char → Option (List Char × List Char × List Char)
  | '.' :: t =>
    match osNames.find? (fun o => o.isPrefixOf t) with
    | some o =>
      match t.drop o.length with
      | '-' :: v => some (o, '-' :: v.takeWhile isArchChar, v.takeWhile isArchChar)
      | _ => some (o, [], [])
    | none => none
  | _ => none

/-- The part `([a-z0-9\.]*)\.(…)…` at the start of the input: the star first tries to
take one more character and gives it back only when the rest then fails. Returns
groups 1, 2, 3 and 4. -/
def matchVersion : List Char → Option (List Char × List Char × List Char × List Char)
  | [] => none
  | c :: cs =>
    if isVerChar c then
      match matchVersion cs with
      | some (v, r) => some (c :: v, r)
      | none => (matchOsArch (c :: cs)).map (fun r => ([], r))
    else (matchOsArch (c :: cs)).map (fun r => ([], r))

/-- The leftmost match of `platformVersionRE`, as its list of submatches: element 0 of
`FindAllStringSubmatch(l, -1)`, or `none` when that list is empty. -/
def platformVersionRE : List Char → Option (List (List Char))
  | [] => none
  | c :: cs =>
    if "/dl/go".toList.isPrefixOf (c :: cs) then
      match matchVersion (cs.drop 5) with
      | some (v, o, g3, g4) =>
        some ["/dl/go".toList ++ v ++ '.' :: o ++ g3, v, o, g3, g4]
      | none => platformVersionRE cs
    else platformVersionRE cs

/-- The strings `platformVersionRE` matches somewhere: `/dl/go`, characters of
`[a-z0-9\.]`, a dot and an operating system name (the optional architecture group may
be empty). -/
def MatchesPlatformVersion (l : List Char) : Prop :=
  ∃ pre v o rest, l = pre ++ ("/dl/go".toList ++ (v ++ '.' :: (o ++ rest))) ∧
    (∀ c ∈ v, isVerChar c = true) ∧ o ∈ osNames

/-! ## `download` (lines 52-83) -/

/-- The struct `download`. -/
structure download where
  Arch : String
  Archive : Bool
  Featured : Bool
  OS : String
  Unstable : Bool
  Url : String
  Version : String
  deriving DecidableEq, Repr

/-- The method `download.Installable`, with `runtime.GOOS` and `runtime.GOARCH` as
parameters. -/
def download.Installable (d : download) (GOOS GOARCH : String) : Bool :=
  -- source code is not installable
  if d.OS = "src" then false
  -- match architecture
  else if d.Arch ≠ GOARCH then false
  -- match OS
  else if d.OS ≠ GOOS then false
  else true

/-! ## `fromLink` (lines 153-182) -/

/-- The function `fromLink`. -/
def fromLink (l : String) : download :=
  let url := urlJoinPath (pathBase l.toList)
  -- mac os patch: replace .pkg w/ .tar.gz
  let url := if isPackageRE url then replacePkg url else url
  let d : download :=
    { Arch := DefaultDownloadValue, Archive := false, Featured := false,
      OS := DefaultDownloadValue, Unstable := false, Url := String.mk url, Version := "" }
  match platformVersionRE l.toList with
  | some pp0 =>
    let d := { d with Version := String.mk (pp0.getD 1 []), OS := String.mk (pp0.getD 2 []) }
    if pp0.length > 3 then { d with Arch := String.mk (pp0.getD 4 []) } else d
  | none => d

/-! ## The document tree (`golang.org/x/net/html`) -/

/-- The type `html.NodeType`. -/
inductive NodeType where
  | ErrorNode | TextNode | DocumentNode | ElementNode | CommentNode | DoctypeNode
  | RawNode
  deriving DecidableEq, Repr

/-- The struct `html.Attribute`. -/
structure Attribute where
  Namespace : String
  Key : String
  Val : String
  deriving DecidableEq, Repr

/-- The struct `html.Node`: the fields the traversal reads, with the children (the
`FirstChild`/`NextSibling` chain) as a list. -/
inductive Node where
  | mk (type : NodeType) (data : String) (attr : List Attribute) (children : List Node)

/-- Field `Type`. -/
def Node.type : Node → NodeType
  | .mk t _ _ _ => t

/-- Field `Data`. -/
def Node.data : Node → String
  | .mk _ d _ _ => d

/-- Field `Attr`. -/
def Node.attr : Node → List Attribute
  | .mk _ _ a _ => a

/-- The children. -/
def Node.children : Node → List Node
  | .mk _ _ _ c => c

/-! ## `extractDownloadLinks` (lines 85-151) -/

/-- The loop of lines 93-98 over the attributes of an `h2` or `div`: every `id`
attribute that matches `sectionRE` is stored in the cursor. -/
def sectionLoop (attr : List Attribute) (cs : String) : String :=
  attr.foldl (fun cs a => if a.Key = "id" ∧ sectionRE a.Val then a.Val else cs) cs

/-- The loop of lines 107-117 over the attributes of an `a`: the values of `d` and `l`
after it. -/
def anchorLoop (attr : List Attribute) : Bool × String :=
  attr.foldl
    (fun (dl : Bool × String) a =>
      (if a.Key = "class" then isDownloadRE a.Val else dl.1,
       if a.Key = "href" then a.Val else dl.2))
    (false, "")

/-- The cursor after lines 89-99 on a node. -/
def cursorStep (cs : String) (n : Node) : String :=
  if n.type = NodeType.ElementNode ∧ (n.data = "h2" ∨ n.data = "div") then
    sectionLoop n.attr cs
  else cs

/-- Lines 102-119: is the node an `a` element whose `d` is set? -/
def Node.isDownloadAnchor (n : Node) : Bool :=
  n.type = NodeType.ElementNode ∧ n.data = "a" ∧ (anchorLoop n.attr).1 = true

/-- Lines 120-123: the entry of a download anchor under the cursor `cs`. -/
def entryAt (cs : String) (n : Node) : download :=
  { fromLink (anchorLoop n.attr).2 with
    Archive := isArchive cs, Featured := isFeaturedRE cs, Unstable := isUnstableRE cs }

/-- Lines 135-147: merge the result of one child into `lnks`. -/
def mergeBatch (lnks tlnks : List download) : List download :=
  match tlnks with
  | [] => lnks
  | t :: _ => if lnks.any (fun lnk => lnk.Url = t.Url) then lnks else lnks ++ tlnks

mutual
/-- The function `extractDownloadLinks`; the package-level variable `cs` is passed in
and returned. -/
def extractDownloadLinks : Node → String → List download × String
  | .mk type data attr children, cs =>
    let cs1 := cursorStep cs (.mk type data attr children)
    if Node.isDownloadAnchor (.mk type data attr children) then
      ([entryAt cs1 (.mk type data attr children)], cs1)
    else childLoop children [] cs1
/-- The loop of lines 131-148 over the children, from the accumulated `lnks`. -/
def childLoop : List Node → List download → String → List download × String
  | [], lnks, cs => (lnks, cs)
  | cn :: rest, lnks, cs =>
    childLoop rest (mergeBatch lnks (extractDownloadLinks cn cs).1)
      (extractDownloadLinks cn cs).2
end

/-! ## The traversal as a sequence -/

mutual
/-- The nodes the traversal visits, in the order it visits them: pre-order, without the
descendants of download anchors. -/
def preorder : Node → List Node
  | .mk type data attr children =>
    .mk type data attr children ::
      (if Node.isDownloadAnchor (.mk type data attr children) then []
       else preorderList children)
/-- The visited nodes of a list of siblings. -/
def preorderList : List Node → List Node
  | [] => []
  | cn :: rest => preorder cn ++ preorderList rest
end

/-- A section start is an `h2` or `div` element with an `id` attribute that matches
`sectionRE`; its identifier is the value of the last such attribute. -/
def sectionStart (n : Node) : Option String :=
  if n.type = NodeType.ElementNode ∧ (n.data = "h2" ∨ n.data = "div") then
    ((n.attr.filter (fun a => a.Key = "id" ∧ sectionRE a.Val)).getLast?).map
      (fun a => a.Val)
  else none

/-- The identifier of the most recent section start among the nodes `pre` visited so
far, or the initial cursor `cs0` when there is none. -/
def cursorBefore (cs0 : String) (pre : List Node) : String :=
  (pre.reverse.findSome? sectionStart).getD cs0

/-- The entries of all download anchors of a sequence of visited nodes, each under the
cursor current at its node. -/
def anchorEntries (cs : String) : List Node → List download
  | [] => []
  | n :: ns =>
    if n.isDownloadAnchor then
      entryAt (cursorStep cs n) n :: anchorEntries (cursorStep cs n) ns
    else anchorEntries (cursorStep cs n) ns

/-- Keep the first entry of every Url: `acc` is what has been collected. -/
def dedupFirst (acc : List download) : List download → List download
  | [] => acc
  | e :: es =>
    if acc.any (fun x => x.Url = e.Url) then dedupFirst acc es
    else dedupFirst (acc ++ [e]) es

/-- The reference catalog in the words of the specification: walk the document in
pre-order (not below a download anchor), one entry per download anchor, dropping every
entry whose Url is that of an entry already collected. -/
def referenceCatalog (doc : Node) (cs : String) : List download :=
  dedupFirst [] (anchorEntries cs (preorder doc))

/-! ## Example documents -/

/-- An element node. -/
def element (tag : String) (attr : List Attribute) (children : List Node) : Node :=
  .mk .ElementNode tag attr children

/-- The anchor `<a class="download" href=…>`. -/
def downloadAnchor (href : String) : Node :=
  element "a" [⟨"", "class", "download"⟩, ⟨"", "href", href⟩] []

/-- The tree of `<html><head></head><body>…</body></html>`. -/
def page (body : List Node) : Node :=
  .mk .DocumentNode "" [] [element "html" [] [element "head" [] [], element "body" [] body]]

/-- Two blocks of two downloads each; the second download of each block is the same
file. -/
def docRepeated : Node :=
  page
    [element "div" []
      [downloadAnchor "/dl/go1.19.4.src.tar.gz",
       downloadAnchor "/dl/go1.19.4.linux-amd64.tar.gz"],
     element "div" []
      [downloadAnchor "/dl/go1.19.4.darwin-amd64.pkg",
       downloadAnchor "/dl/go1.19.4.linux-amd64.tar.gz"]]

/-- A featured block with one download, then a block that repeats it and adds another
file. -/
def docDropped : Node :=
  page
    [element "div" [⟨"", "id", "featured"⟩]
      [downloadAnchor "/dl/go1.19.4.linux-amd64.tar.gz"],
     element "div" [⟨"", "id", "stable"⟩]
      [downloadAnchor "/dl/go1.19.4.linux-amd64.tar.gz",
       downloadAnchor "/dl/go1.19.4.windows-amd64.zip"]]

/-- Four blocks: the second repeats the first and adds the `windows` file, the third
holds the `freebsd` file, the fourth the `windows` file again. -/
def docLate : Node :=
  page
    [element "div" [] [downloadAnchor "/dl/go1.19.4.linux-amd64.tar.gz"],
     element "div" []
      [downloadAnchor "/dl/go1.19.4.linux-amd64.tar.gz",
       downloadAnchor "/dl/go1.19.4.windows-amd64.zip"],
     element "div" [] [downloadAnchor "/dl/go1.19.4.freebsd-amd64.tar.gz"],
     element "div" [] [downloadAnchor "/dl/go1.19.4.windows-amd64.zip"]]

/-- An archive section with one download. -/
def docArchive : Node :=
  page
    [element "div" [⟨"", "id", "archive"⟩]
      [downloadAnchor "/dl/go1.18.linux-amd64.tar.gz"]]

/-- The entry of the download of `docArchive`. -/
def entryArchive : download :=
  { Arch := "amd64", Archive := true, Featured := false, OS := "linux",
    Unstable := false, Url := "https://go.dev/dl/go1.18.linux-amd64.tar.gz",
    Version := "1.18" }

/-! ## The resolver loop of `main` (lines 354-379) -/

/-- The zero value `download{}`. -/
def zeroDownload : download :=
  { Arch := "", Archive := false, Featured := false, OS := "", Unstable := false, Url := "",
    Version := "" }

/-- The loop of lines 357-373 over the catalog: `tok` is `opts.Args.Version[0]`, `dl` the
variable of line 354; the first branch is the one that ends in `break`. -/
def resolveLoop (tok GOOS GOARCH : String) : List download → download → download
  | [], dl => dl
  | d :: rest, dl =>
    -- check for version match
    if d.Version = tok ∧ d.Installable GOOS GOARCH = true then d
    else
      -- check for featured / stable
      let dl1 :=
        if latestRE tok = true ∧ d.Featured = true ∧ d.Installable GOOS GOARCH = true then d
        else dl
      -- check for unstable
      let dl2 :=
        if isUnstableRE tok = true ∧ d.Unstable = true ∧ d.Installable GOOS GOARCH = true
        then d
        else dl1
      resolveLoop tok GOOS GOARCH rest dl2

/-- Lines 354-379: the entry handed to `installVersion`, or `none` for the outcome
`requested version (…) not found`. -/
def resolve (lnks : List download) (tok GOOS GOARCH : String) : Option download :=
  let dl := resolveLoop tok GOOS GOARCH lnks zeroDownload
  if dl = zeroDownload then none else some dl

/-- An entry qualifies for a token: it is installable and has the token as Version, or
the token matches `feature|latest|stable` and it is Featured, or the token matches
`unstable` and it is Unstable. -/
def qualifies (tok GOOS GOARCH : String) (d : download) : Bool :=
  d.Installable GOOS GOARCH ∧
    (d.Version = tok ∨ (latestRE tok = true ∧ d.Featured = true) ∨
      (isUnstableRE tok = true ∧ d.Unstable = true))

/-- An entry matches a keyword request: installable, and Featured under a token that
matches `feature|latest|stable` or Unstable under a token that matches `unstable`. -/
def keywordMatch (tok GOOS GOARCH : String) (d : download) : Bool :=
  d.Installable GOOS GOARCH ∧
    ((latestRE tok = true ∧ d.Featured = true) ∨ (isUnstableRE tok = true ∧ d.Unstable = true))

/-- An unstable entry for `linux`/`amd64`. -/
def entryRc : download :=
  { Arch := "amd64", Archive := false, Featured := false, OS := "linux", Unstable := true,
    Url := "https://go.dev/dl/go1.20rc1.linux-amd64.tar.gz", Version := "1.20rc1" }

/-- A featured entry for `linux`/`amd64`. -/
def entry1194 : download :=
  { Arch := "amd64", Archive := false, Featured := true, OS := "linux", Unstable := false,
    Url := "https://go.dev/dl/go1.19.4.linux-amd64.tar.gz", Version := "1.19.4" }

/-- A second featured entry for `linux`/`amd64`. -/
def entry1189 : download :=
  { Arch := "amd64", Archive := false, Featured := true, OS := "linux", Unstable := false,
    Url := "https://go.dev/dl/go1.18.9.linux-amd64.tar.gz", Version := "1.18.9" }

/-- An archived entry for `linux`/`amd64`. -/
def entry117 : download :=
  { Arch := "amd64", Archive := true, Featured := false, OS := "linux", Unstable := false,
    Url := "https://go.dev/dl/go1.17.linux-amd64.tar.gz", Version := "1.17" }

/-- A catalog for the host `linux`/`amd64`: an unstable entry, two featured entries and
an archived one. -/
def catalogLinux : List download := [entryRc, entry1194, entry1189, entry117]

/-! ## The installer `installVersion` (lines 184-250), over an explicit filesystem

The filesystem has no access control and no links: a call fails only because of what
exists at the path or at its parent. Paths are the cleaned names that `path.Join`
produces. Every call that creates an object runs under the umask of the process. -/

/-- What a path names: a directory or a regular file, each with its Unix mode bits. -/
inductive FsObj where
  | dir (mode : Nat)
  | file (mode : Nat) (data : List Nat)
  deriving DecidableEq, Repr

/-- The permission bits of an object: the nine low bits of its mode. -/
def FsObj.permBits : FsObj → Nat
  | .dir mode => mode % 512
  | .file mode _ => mode % 512

/-- The bit `ModeSetuid` of `os.FileMode`. -/
def ModeSetuid : Nat := 2 ^ 23

/-- The bit `ModeSetgid` of `os.FileMode`. -/
def ModeSetgid : Nat := 2 ^ 22

/-- The bit `ModeSticky` of `os.FileMode`. -/
def ModeSticky : Nat := 2 ^ 20

/-- Go's `syscallMode`: the Unix mode for a `FileMode`, that is its permission bits, with
the set-uid, set-gid and sticky bits at their Unix places. -/
def syscallMode (i : Nat) : Nat :=
  (i &&& 0o777) ||| (if i &&& ModeSetuid ≠ 0 then 0o4000 else 0)
    ||| (if i &&& ModeSetgid ≠ 0 then 0o2000 else 0)
    ||| (if i &&& ModeSticky ≠ 0 then 0o1000 else 0)

/-- The mode of an object created with the Unix mode `mode` by a process with the given
umask: the permission bits of the umask are cleared. -/
def createMode (umask mode : Nat) : Nat := mode &&& (0o7777 ^^^ (umask &&& 0o777))

/-- The filesystem state: the object at each path, if any. -/
abbrev FS := String → Option FsObj

/-- The state with `o` at `name`. -/
def FS.set (fs : FS) (name : String) (o : FsObj) : FS :=
  fun p => if p = name then some o else fs p

/-- Go's `path.Dir`: everything up to the last slash, cleaned. -/
def pathDir (p : String) : String :=
  String.mk (pathClean ((p.toList.reverse.dropWhile (fun c => c != '/')).reverse))

/-- The call `path.Join(df, name)`. -/
def joinName (df name : String) : String :=
  String.mk (pathJoin [df.toList, name.toList])

/-- The call `os.Mkdir(name, perm)`: fails when `name` exists or when its parent is not
a directory; the directory gets the mode `syscallMode(perm)` without the bits of the
umask. -/
def mkdir (umask : Nat) (fs : FS) (name : String) (perm : Nat) : Option FS :=
  match fs name with
  | some _ => none
  | none =>
    match fs (pathDir name) with
    | some (.dir _) => some (fs.set name (.dir (createMode umask (syscallMode perm))))
    | _ => none

/-- The call `os.OpenFile(name, os.O_CREATE|os.O_RDWR, perm)`: an existing file is
opened as it is (there is no `O_TRUNC`), a directory cannot be opened for writing, a
missing file is created empty under an existing parent directory, with the mode
`syscallMode(perm)` without the bits of the umask. -/
def openFile (umask : Nat) (fs : FS) (name : String) (perm : Nat) : Option FS :=
  match fs name with
  | some (.file _ _) => some fs
  | some (.dir _) => none
  | none =>
    match fs (pathDir name) with
    | some (.dir _) =>
      some (fs.set name (.file (createMode umask (syscallMode perm)) []))
    | _ => none

/-- The effect of `io.Copy(of, tr)` on the file just opened: the bytes are written from
offset 0. -/
def writeFile (fs : FS) (name : String) (bytes : List Nat) : FS :=
  match fs name with
  | some (.file mode old) => fs.set name (.file mode (bytes ++ old.drop bytes.length))
  | _ => fs

/-- Go's `endsWithDot`: the path is `.` or ends in `/.`. -/
def endsWithDot (p : List Char) : Bool :=
  match p.reverse with
  | ['.'] => true
  | '.' :: '/' :: _ => true
  | _ => false

/-- Is `p` the (non-empty) path `root` or a path below it? -/
def inTree (root p : String) : Bool :=
  let r := pathClean root.toList
  root ≠ "" ∧
    (p.toList = r ∨ (if r.getLast? = some '/' then r else r ++ ['/']).isPrefixOf p.toList)

/-- The call `os.RemoveAll(path)`: nothing happens for the empty path, a path that ends
in a dot is refused, otherwise the path and everything below it are removed. -/
def removeAll (fs : FS) (path : String) : Option FS :=
  if path = "" then some fs
  else if endsWithDot path.toList then none
  else some (fun p => if inTree path p then none else fs p)

/-- The constant `tar.TypeReg`, the byte `0`. -/
def TypeReg : Nat := 48

/-- The constant `tar.TypeDir`, the byte `5`. -/
def TypeDir : Nat := 53

/-- The fields of `tar.Header` the loop reads. -/
structure Header where
  Typeflag : Nat
  Name : String
  Mode : Nat
  deriving DecidableEq, Repr

/-- One entry of the archive stream: its header, the bytes of its payload that can be
read, and whether reading the payload then fails. -/
structure TarEntry where
  header : Header
  payload : List Nat
  readErr : Bool
  deriving DecidableEq, Repr

/-- How `installVersion` ends: normally, or in one of its panics. -/
inductive Outcome where
  | installed | getFailed | removeFailed | gzipFailed | nextFailed | mkdirFailed
  | createFailed | copyFailed | unknownType
  deriving DecidableEq, Repr

/-- What the network delivers for `dl.Url`: `http.Get` fails, or the body is not a gzip
stream, or it is an archive whose entries `tr.Next()` returns one by one, followed by
`io.EOF` or (with `nextErr`) by an error. -/
inductive Fetched where
  | getError
  | notGzip
  | archive (entries : List TarEntry) (nextErr : Bool)

/-- The loop of lines 211-247 over the entries of the archive, `df` being the parent of
the installation root and `umask` the umask of the process. -/
def extractLoop (umask : Nat) (df : String) : List TarEntry → Bool → FS → FS × Outcome
  | [], nextErr, fs => if nextErr then (fs, .nextFailed) else (fs, .installed)
  | e :: rest, nextErr, fs =>
    if e.header.Typeflag = TypeDir then
      -- create temp folder
      match mkdir umask fs (joinName df e.header.Name) 0o755 with
      | none => (fs, .mkdirFailed)
      | some fs1 => extractLoop umask df rest nextErr fs1
    else if e.header.Typeflag = TypeReg then
      -- create temp file
      match openFile umask fs (joinName df e.header.Name) (e.header.Mode % 2 ^ 32) with
      | none => (fs, .createFailed)
      | some fs1 =>
        -- copy contents to temp file
        if e.readErr then (writeFile fs1 (joinName df e.header.Name) e.payload, .copyFailed)
        else
          extractLoop umask df rest nextErr
            (writeFile fs1 (joinName df e.header.Name) e.payload)
    else (fs, .unknownType)

/-- The function `installVersion`, with `runtime.GOROOT()` as the parameter `GOROOT` and
the umask of the process as `umask`: the final filesystem and the outcome. -/
def installVersion (umask : Nat) (res : Fetched) (GOROOT : String) (fs : FS) :
    FS × Outcome :=
  match res with
  | .getError => (fs, .getFailed)
  | .notGzip =>
    match removeAll fs GOROOT with
    | none => (fs, .removeFailed)
    | some fs1 => (fs1, .gzipFailed)
  | .archive entries nextErr =>
    match removeAll fs GOROOT with
    | none => (fs, .removeFailed)
    | some fs1 => extractLoop umask (pathDir GOROOT) entries nextErr fs1

/-- A host with Go installed in `/usr/local/go`. -/
def fsHost : FS := fun p =>
  if p = "/" ∨ p = "/usr" ∨ p = "/usr/local" ∨ p = "/usr/local/go" then some (.dir 0o755)
  else if p = "/usr/local/go/VERSION" then some (.file 0o644 [103, 111])
  else none

/-- A directory entry. -/
def dirEntry (name : String) (mode : Nat) : TarEntry :=
  { header := { Typeflag := TypeDir, Name := name, Mode := mode }, payload := [],
    readErr := false }

/-- A regular file entry. -/
def fileEntry (name : String) (mode : Nat) (payload : List Nat) : TarEntry :=
  { header := { Typeflag := TypeReg, Name := name, Mode := mode }, payload := payload,
    readErr := false }

/-- A symbolic link entry (`tar.TypeSymlink`, the byte `2`). -/
def symlinkEntry (name : String) : TarEntry :=
  { header := { Typeflag := 50, Name := name, Mode := 0o777 }, payload := [],
    readErr := false }

/-- Is there a directory at `p`? -/
def isDirAt (fs : FS) (p : String) : Bool :=
  match fs p with
  | some (.dir _) => true
  | _ => false

/-- Is there a regular file at `p`? -/
def isFileAt (fs : FS) (p : String) : Bool :=
  match fs p with
  | some (.file _ _) => true
  | _ => false

/-- An entry without its section flags. -/
def unflag (d : download) : download :=
  { d with Archive := false, Featured := false, Unstable := false }

/-- A download ahead of the first section, then an archive section with another
download. -/
def docEarly : Node :=
  page
    [downloadAnchor "/dl/go1.19.4.linux-amd64.tar.gz",
     element "div" [⟨"", "id", "archive"⟩]
      [downloadAnchor "/dl/go1.18.linux-amd64.tar.gz"]]

/-- An archive block marked up as a `section` element. -/
def docSection : Node :=
  page
    [element "section" [⟨"", "id", "archive"⟩]
      [downloadAnchor "/dl/go1.18.linux-amd64.tar.gz"]]

/-- The host `fsHost` after `os.RemoveAll("/usr/local/go")`. -/
def fsCleared : FS := fun p => if inTree "/usr/local/go" p then none else fsHost p

/-- An archive whose first file comes before its directory, with a symbolic link in
third place. -/
def archiveNoParent : List TarEntry :=
  [fileEntry "go/VERSION" 0o644 [103, 111], dirEntry "go/bin" 0o755,
   symlinkEntry "go/bin/gofmt"]

/-- A directory recorded with mode `0700`, then a file under it. -/
def archiveDirFile : List TarEntry :=
  [dirEntry "go" 0o700, fileEntry "go/VERSION" 0o644 [103, 111]]

/-- A directory, then a file under it recorded with mode `0666`. -/
def archiveWritable : List TarEntry :=
  [dirEntry "go" 0o755, fileEntry "go/VERSION" 0o666 [103, 111]]

/-- A directory two levels below the parent of the installation root, then a file under
it. -/
def archiveNested : List TarEntry :=
  [dirEntry "go/bin" 0o755, fileEntry "go/bin/gofmt" 0o755 [127, 69]]

/-- No download anchor is met before the first section start of a sequence of visited
nodes. -/
def guarded : List Node → Bool
  | [] => true
  | n :: ns =>
    if (sectionStart n).isSome then true
    else if n.isDownloadAnchor then false
    else guarded ns

/-! # Theorems -/

theorem hasSub_iff (pat s : List Char) : hasSub pat s = true ↔ pat <:+: s := by
  induction s with
  | nil => simp [hasSub, List.isPrefixOf_iff_prefix]
  | cons c cs ih =>
    simp only [hasSub, Bool.or_eq_true, ih, List.infix_cons_iff, List.isPrefixOf_iff_prefix]

/-! ## The cursor -/

theorem sectionLoop_eq (attr : List Attribute) (cs : String) :
    sectionLoop attr cs =
      (((attr.filter (fun a => a.Key = "id" ∧ sectionRE a.Val)).getLast?).map
        (fun a => a.Val)).getD cs := by
  induction attr using List.reverseRecOn with
  | nil => simp [sectionLoop]
  | append_singleton l a ih =>
    unfold sectionLoop at ih ⊢
    rw [List.foldl_append, ih, List.filter_append]
    by_cases h : a.Key = "id" ∧ sectionRE a.Val = true
    · simp [List.filter_cons, h]
    · simp [List.filter_cons, h]

theorem cursorStep_eq (cs : String) (n : Node) :
    cursorStep cs n = (sectionStart n).getD cs := by
  unfold cursorStep sectionStart
  split
  · exact sectionLoop_eq _ _
  · rfl

theorem cursorBefore_eq_foldl (cs0 : String) (pre : List Node) :
    cursorBefore cs0 pre = pre.foldl cursorStep cs0 := by
  induction pre using List.reverseRecOn with
  | nil => simp [cursorBefore]
  | append_singleton l a ih =>
    rw [List.foldl_append, ← ih]
    simp only [List.foldl_cons, List.foldl_nil, cursorStep_eq]
    unfold cursorBefore
    simp only [List.reverse_append, List.reverse_cons, List.reverse_nil, List.nil_append,
      List.singleton_append, List.findSome?_cons]
    cases sectionStart a <;> simp

theorem cursorStep_anchor (cs : String) (n : Node) (h : n.isDownloadAnchor = true) :
    cursorStep cs n = cs := by
  unfold Node.isDownloadAnchor at h
  unfold cursorStep
  simp only [decide_eq_true_eq] at h
  have h2 : n.data ≠ "h2" := by rw [h.2.1]; decide
  have h3 : n.data ≠ "div" := by rw [h.2.1]; decide
  simp [h2, h3]

theorem anchorEntries_append (cs : String) (xs ys : List Node) :
    anchorEntries cs (xs ++ ys) =
      anchorEntries cs xs ++ anchorEntries (xs.foldl cursorStep cs) ys := by
  induction xs generalizing cs with
  | nil => simp [anchorEntries]
  | cons x xs ih =>
    simp only [List.cons_append, anchorEntries, List.foldl_cons]
    split <;> simp [ih]

theorem mem_anchorEntries (cs : String) (ns : List Node) (e : download)
    (he : e ∈ anchorEntries cs ns) :
    ∃ pre a post, ns = pre ++ a :: post ∧ a.isDownloadAnchor = true ∧
      e = entryAt (cursorBefore cs pre) a := by
  induction ns generalizing cs with
  | nil => simp [anchorEntries] at he
  | cons n ns ih =>
    simp only [anchorEntries] at he
    have key : e ∈ anchorEntries (cursorStep cs n) ns →
        ∃ pre a post, n :: ns = pre ++ a :: post ∧ a.isDownloadAnchor = true ∧
          e = entryAt (cursorBefore cs pre) a := by
      intro h
      obtain ⟨pre, a, post, h1, h2, h3⟩ := ih _ h
      refine ⟨n :: pre, a, post, by simp [h1], h2, ?_⟩
      rw [h3, cursorBefore_eq_foldl, cursorBefore_eq_foldl, List.foldl_cons]
    by_cases hn : n.isDownloadAnchor = true
    · rw [if_pos hn] at he
      rcases List.mem_cons.1 he with h | h
      · refine ⟨[], n, ns, rfl, hn, ?_⟩
        rw [h, cursorStep_anchor cs n hn]
        simp [cursorBefore]
      · exact key h
    · rw [if_neg hn] at he
      exact key he

/-! ## The traversal against the sequence of visited nodes -/

theorem mergeBatch_append (lnks tlnks : List download) :
    ∃ kept, mergeBatch lnks tlnks = lnks ++ kept ∧ kept.Sublist tlnks := by
  unfold mergeBatch
  cases tlnks with
  | nil => exact ⟨[], by simp, List.Sublist.refl _⟩
  | cons t ts =>
    simp only
    split
    · exact ⟨[], by simp, List.nil_sublist _⟩
    · exact ⟨t :: ts, rfl, List.Sublist.refl _⟩

mutual
theorem extract_sublist : ∀ (n : Node) (cs : String),
    (extractDownloadLinks n cs).2 = (preorder n).foldl cursorStep cs ∧
      ((extractDownloadLinks n cs).1).Sublist (anchorEntries cs (preorder n))
  | .mk type data attr children, cs => by
    have ih := childLoop_sublist children [] (cursorStep cs (.mk type data attr children))
    unfold extractDownloadLinks preorder
    by_cases hn : Node.isDownloadAnchor (.mk type data attr children) = true
    · simp only [hn, if_true, List.foldl_cons, List.foldl_nil, anchorEntries]
      exact ⟨trivial, List.Sublist.refl _⟩
    · simp only [hn, Bool.false_eq_true, if_false, List.foldl_cons, anchorEntries]
      obtain ⟨h1, kept, h2, h3⟩ := ih
      refine ⟨h1, ?_⟩
      rw [h2]
      simpa using h3
theorem childLoop_sublist : ∀ (ch : List Node) (lnks : List download) (cs : String),
    (childLoop ch lnks cs).2 = (preorderList ch).foldl cursorStep cs ∧
      ∃ kept, (childLoop ch lnks cs).1 = lnks ++ kept ∧
        kept.Sublist (anchorEntries cs (preorderList ch))
  | [], lnks, cs => by
    unfold childLoop preorderList
    exact ⟨rfl, [], by simp, List.Sublist.refl _⟩
  | cn :: rest, lnks, cs => by
    obtain ⟨h1, h2⟩ := extract_sublist cn cs
    obtain ⟨kept, hk1, hk2⟩ := mergeBatch_append lnks (extractDownloadLinks cn cs).1
    obtain ⟨h3, kept2, h4, h5⟩ :=
      childLoop_sublist rest (mergeBatch lnks (extractDownloadLinks cn cs).1)
        (extractDownloadLinks cn cs).2
    unfold childLoop preorderList
    rw [List.foldl_append, anchorEntries_append, ← h1]
    refine ⟨h3, kept ++ kept2, ?_, ?_⟩
    · rw [h4, hk1, List.append_assoc]
    · exact List.Sublist.append (hk2.trans h2) h5
end

/-! ## The pattern `platformVersionRE` -/

theorem takeWhile_append_stop {α : Type} (p : α → Bool) (a b : List α)
    (ha : ∀ x ∈ a, p x = true) (hb : ∀ x, b.head? = some x → p x = false) :
    (a ++ b).takeWhile p = a := by
  induction a with
  | nil =>
    cases b with
    | nil => rfl
    | cons x t => simp [List.takeWhile_cons, hb x rfl]
  | cons x t ih =>
    have hx : p x = true := ha x (List.mem_cons_self _ _)
    simp only [List.cons_append, List.takeWhile_cons, hx, if_true]
    rw [ih (fun y hy => ha y (List.mem_cons_of_mem _ hy))]

theorem matchOsArch_of_shape (o arch ext : List Char) (ho : o ∈ osNames)
    (ha : ∀ c ∈ arch, isArchChar c = true)
    (he : ∀ c, ext.head? = some c → isArchChar c = false) :
    matchOsArch ('.' :: (o ++ '-' :: (arch ++ ext))) = some (o, '-' :: arch, arch) := by
  have ht := takeWhile_append_stop isArchChar arch ext ha he
  simp only [osNames, List.mem_cons, List.mem_singleton, List.not_mem_nil, or_false] at ho
  rcases ho with h | h | h | h | h <;> subst h <;>
    simp [matchOsArch, osNames, List.find?, List.isPrefixOf, ht]

theorem matchVersion_os_none (o rest : List Char) (ho : o ∈ osNames) :
    matchVersion (o ++ '-' :: rest) = none := by
  simp only [osNames, List.mem_cons, List.mem_singleton, List.not_mem_nil, or_false] at ho
  rcases ho with h | h | h | h | h <;> subst h <;>
    simp [matchVersion, matchOsArch, isVerChar]

theorem matchVersion_of_shape (v o arch ext : List Char)
    (hv : ∀ c ∈ v, isVerChar c = true) (ho : o ∈ osNames)
    (ha : ∀ c ∈ arch, isArchChar c = true)
    (he : ∀ c, ext.head? = some c → isArchChar c = false) :
    matchVersion (v ++ '.' :: (o ++ '-' :: (arch ++ ext))) =
      some (v, o, '-' :: arch, arch) := by
  induction v with
  | nil =>
    have h1 : isVerChar '.' = true := by decide
    simp only [List.nil_append, matchVersion, h1, if_true,
      matchVersion_os_none o (arch ++ ext) ho, matchOsArch_of_shape o arch ext ho ha he,
      Option.map_some']
  | cons c cs ih =>
    have hc : isVerChar c = true := hv c (List.mem_cons_self _ _)
    have ih2 := ih (fun y hy => hv y (List.mem_cons_of_mem _ hy))
    rw [List.cons_append, matchVersion, if_pos hc, ih2]

theorem find_osNames_prefix (t o : List Char)
    (h : osNames.find? (fun o => o.isPrefixOf t) = some o) :
    o ∈ osNames ∧ ∃ rest, t = o ++ rest := by
  have h1 := List.find?_some h
  have h2 := List.mem_of_find?_eq_some h
  rw [List.isPrefixOf_iff_prefix] at h1
  obtain ⟨rest, hr⟩ := h1
  exact ⟨h2, rest, hr.symm⟩

theorem matchOsArch_sound (s o g3 g4 : List Char) (h : matchOsArch s = some (o, g3, g4)) :
    o ∈ osNames ∧ ∃ rest, s = '.' :: (o ++ rest) := by
  unfold matchOsArch at h
  split at h
  · rename_i t
    split at h
    · rename_i o2 hf
      obtain ⟨hm, rest, hr⟩ := find_osNames_prefix t o2 hf
      have ho : o2 = o := by
        split at h <;> simp at h <;> exact h.1
      subst ho
      exact ⟨hm, rest, by rw [hr]⟩
    · simp at h
  · simp at h

theorem matchVersion_sound (s v o g3 g4 : List Char)
    (h : matchVersion s = some (v, o, g3, g4)) :
    (∀ c ∈ v, isVerChar c = true) ∧ o ∈ osNames ∧ ∃ rest, s = v ++ '.' :: (o ++ rest) := by
  induction s generalizing v with
  | nil => simp [matchVersion] at h
  | cons c cs ih =>
    have fallback : Option.map (fun r => (([] : List Char), r)) (matchOsArch (c :: cs)) =
        some (v, o, g3, g4) →
        (∀ c ∈ v, isVerChar c = true) ∧ o ∈ osNames ∧
          ∃ rest, c :: cs = v ++ '.' :: (o ++ rest) := by
      intro h2
      cases hm : matchOsArch (c :: cs) with
      | none => simp [hm] at h2
      | some r =>
        obtain ⟨o2, g32, g42⟩ := r
        simp only [hm, Option.map_some', Option.some.injEq, Prod.mk.injEq] at h2
        obtain ⟨hv, ho, _, _⟩ := h2
        subst hv ho
        obtain ⟨h3, rest, h4⟩ := matchOsArch_sound _ _ _ _ hm
        exact ⟨by simp, h3, rest, by simpa using h4⟩
    rw [matchVersion] at h
    split at h
    · rename_i hc
      cases hm : matchVersion cs with
      | none =>
        rw [hm] at h
        exact fallback h
      | some r =>
        obtain ⟨v2, o2, g32, g42⟩ := r
        rw [hm] at h
        simp only [Option.some.injEq, Prod.mk.injEq] at h
        obtain ⟨hv, ho, hg3, hg4⟩ := h
        subst hv ho hg3 hg4
        obtain ⟨h3, h4, rest, h5⟩ := ih v2 hm
        refine ⟨?_, h4, rest, by simp [h5]⟩
        intro x hx
        rcases List.mem_cons.1 hx with hx | hx
        · rw [hx]; exact hc
        · exact h3 x hx
    · exact fallback h

theorem platformVersionRE_sound (l : List Char) (pp0 : List (List Char))
    (h : platformVersionRE l = some pp0) : MatchesPlatformVersion l := by
  induction l with
  | nil => simp [platformVersionRE] at h
  | cons c cs ih =>
    have step : platformVersionRE cs = some pp0 → MatchesPlatformVersion (c :: cs) := by
      intro h2
      obtain ⟨pre, v, o, rest, h3, h4, h5⟩ := ih h2
      exact ⟨c :: pre, v, o, rest, by simp [h3], h4, h5⟩
    rw [platformVersionRE] at h
    split at h
    · rename_i hp
      rw [List.isPrefixOf_iff_prefix] at hp
      obtain ⟨t, ht⟩ := hp
      have hcs : cs.drop 5 = t := by
        have : cs = "dl/go".toList ++ t := by
          have h0 : "/dl/go".toList = '/' :: "dl/go".toList := rfl
          rw [h0, List.cons_append] at ht
          exact (List.cons.inj ht).2.symm
        rw [this]
        simp
      cases hm : matchVersion (cs.drop 5) with
      | none =>
        rw [hm] at h
        exact step h
      | some r =>
        obtain ⟨v, o, g3, g4⟩ := r
        rw [hcs] at hm
        obtain ⟨h3, h4, rest, h5⟩ := matchVersion_sound _ _ _ _ _ hm
        exact ⟨[], v, o, rest, by rw [← ht, h5]; simp, h3, h4⟩
    · exact step h

theorem matchVersion_complete (v o rest : List Char)
    (hv : ∀ c ∈ v, isVerChar c = true) (ho : o ∈ osNames) :
    (matchVersion (v ++ '.' :: (o ++ rest))).isSome = true := by
  induction v with
  | nil =>
    have h1 : isVerChar '.' = true := by decide
    rw [List.nil_append, matchVersion, if_pos h1]
    cases hm : matchVersion (o ++ rest) with
    | some r => rfl
    | none =>
      have hf : (osNames.find? (fun x => x.isPrefixOf (o ++ rest))).isSome = true := by
        rw [List.find?_isSome]
        exact ⟨o, ho, by rw [List.isPrefixOf_iff_prefix]; exact List.prefix_append _ _⟩
      simp only [matchOsArch]
      cases hf2 : osNames.find? (fun x => x.isPrefixOf (o ++ rest)) with
      | none => rw [hf2] at hf; simp at hf
      | some o2 =>
        simp only []
        split <;> rfl
  | cons c cs ih =>
    have hc : isVerChar c = true := hv c (List.mem_cons_self _ _)
    have ih2 := ih (fun y hy => hv y (List.mem_cons_of_mem _ hy))
    rw [List.cons_append, matchVersion, if_pos hc]
    cases hm : matchVersion (cs ++ '.' :: (o ++ rest)) with
    | some r => rfl
    | none => rw [hm] at ih2; simp at ih2

theorem platformVersionRE_complete (l : List Char) (h : MatchesPlatformVersion l) :
    (platformVersionRE l).isSome = true := by
  obtain ⟨pre, v, o, rest, h1, h2, h3⟩ := h
  subst h1
  induction pre with
  | nil =>
    have hm := matchVersion_complete v o rest h2 h3
    have h0 : [] ++ ("/dl/go".toList ++ (v ++ '.' :: (o ++ rest))) =
        '/' :: ("dl/go".toList ++ (v ++ '.' :: (o ++ rest))) := rfl
    rw [h0, platformVersionRE]
    have hp : "/dl/go".toList.isPrefixOf
        ('/' :: ("dl/go".toList ++ (v ++ '.' :: (o ++ rest)))) = true := by
      rw [List.isPrefixOf_iff_prefix]
      exact ⟨v ++ '.' :: (o ++ rest), rfl⟩
    have hd : ("dl/go".toList ++ (v ++ '.' :: (o ++ rest))).drop 5 =
        v ++ '.' :: (o ++ rest) := by simp
    rw [if_pos hp, hd]
    cases hm2 : matchVersion (v ++ '.' :: (o ++ rest)) with
    | none => rw [hm2] at hm; simp at hm
    | some r => rfl
  | cons c cs ih =>
    rw [List.cons_append, platformVersionRE]
    split
    · cases matchVersion _ with
      | none => exact ih
      | some r => rfl
    · exact ih

theorem osNames_of_string (os : String)
    (ho : os ∈ ["darwin", "freebsd", "linux", "src", "windows"]) : os.toList ∈ osNames := by
  simp only [List.mem_cons, List.mem_singleton, List.not_mem_nil, or_false] at ho
  rcases ho with h | h | h | h | h <;> subst h <;> decide

theorem platformVersionRE_of_shape (v o arch ext : List Char)
    (hv : ∀ c ∈ v, isVerChar c = true) (ho : o ∈ osNames)
    (ha : ∀ c ∈ arch, isArchChar c = true)
    (he : ∀ c, ext.head? = some c → isArchChar c = false) :
    platformVersionRE ("/dl/go".toList ++ (v ++ '.' :: (o ++ '-' :: (arch ++ ext)))) =
      some ["/dl/go".toList ++ v ++ '.' :: o ++ '-' :: arch, v, o, '-' :: arch, arch] := by
  have h0 : "/dl/go".toList ++ (v ++ '.' :: (o ++ '-' :: (arch ++ ext))) =
      '/' :: ("dl/go".toList ++ (v ++ '.' :: (o ++ '-' :: (arch ++ ext)))) := rfl
  have hp : "/dl/go".toList.isPrefixOf
      ('/' :: ("dl/go".toList ++ (v ++ '.' :: (o ++ '-' :: (arch ++ ext))))) = true := by
    rw [List.isPrefixOf_iff_prefix]
    exact ⟨v ++ '.' :: (o ++ '-' :: (arch ++ ext)), rfl⟩
  have hd : ("dl/go".toList ++ (v ++ '.' :: (o ++ '-' :: (arch ++ ext)))).drop 5 =
      v ++ '.' :: (o ++ '-' :: (arch ++ ext)) := by simp
  rw [h0, platformVersionRE, if_pos hp, hd, matchVersion_of_shape v o arch ext hv ho ha he]

theorem fromLink_of_match (l : String) (pp0 : List (List Char))
    (h : platformVersionRE l.toList = some pp0) (hlen : pp0.length > 3) :
    (fromLink l).Version = String.mk (pp0.getD 1 []) ∧
      (fromLink l).OS = String.mk (pp0.getD 2 []) ∧
      (fromLink l).Arch = String.mk (pp0.getD 4 []) := by
  unfold fromLink
  simp only [h, hlen, if_true]
  simp

theorem fromLink_of_no_match (l : String) (h : platformVersionRE l.toList = none) :
    (fromLink l).Version = "" ∧ (fromLink l).OS = DefaultDownloadValue ∧
      (fromLink l).Arch = DefaultDownloadValue ∧ (fromLink l).Archive = false ∧
      (fromLink l).Featured = false ∧ (fromLink l).Unstable = false := by
  unfold fromLink
  simp only [h]
  simp

/-! ## `path.Base`, `path.Join` and `url.JoinPath` on ordinary file names -/

theorem splitSlash_no_slash (s : List Char) (h : '/' ∉ s) : splitSlash s = [s] := by
  induction s with
  | nil => rfl
  | cons c cs ih =>
    have hc : c ≠ '/' := fun e => h (by simp [e])
    have hcs : '/' ∉ cs := fun e => h (List.mem_cons_of_mem _ e)
    simp [splitSlash, hc, ih hcs]

theorem pathBase_segment (dir seg : List Char) (hd : dir = [] ∨ ∃ d, dir = d ++ ['/'])
    (hne : seg ≠ []) (hs : '/' ∉ seg) : pathBase (dir ++ seg) = seg := by
  have hrev : ∀ x ∈ seg.reverse, (x != '/') = true := by
    intro x hx
    have : x ≠ '/' := fun e => hs (by rw [← e]; exact List.mem_reverse.1 hx)
    simpa using this
  have hstrip : stripTrailingSlashes (dir ++ seg) = dir ++ seg := by
    unfold stripTrailingSlashes
    rw [List.reverse_append]
    cases hr : seg.reverse with
    | nil => exact absurd (List.reverse_eq_nil_iff.1 hr) hne
    | cons x t =>
      have hx : (x == '/') = false := by
        have := hrev x (by rw [hr]; exact List.mem_cons_self _ _)
        simpa using this
      rw [List.cons_append, List.dropWhile_cons, hx]
      simp only [Bool.false_eq_true, if_false]
      rw [← List.cons_append, ← hr, ← List.reverse_append, List.reverse_reverse]
  have hlast : afterLastSlash (dir ++ seg) = seg := by
    unfold afterLastSlash
    rw [List.reverse_append, takeWhile_append_stop _ _ _ hrev, List.reverse_reverse]
    intro x hx
    rcases hd with h | ⟨d, h⟩
    · subst h; simp at hx
    · subst h
      simp at hx
      simp [← hx]
  unfold pathBase
  have hp : dir ++ seg ≠ [] := by simp [hne]
  simp [hp, hstrip, hlast, hne]

theorem pathJoin_segment (seg : List Char) (hne : seg ≠ []) (hs : '/' ∉ seg)
    (hdot : seg ≠ ['.']) (hdd : seg ≠ ['.', '.']) :
    pathJoin [basePath, seg] = basePath ++ seg := by
  have hsp := splitSlash_no_slash seg hs
  simp [pathJoin, basePath, hne, pathClean, List.intercalate, splitSlash, hsp, cleanStep,
    hdot, hdd]

theorem urlSafe_facts (c : Char) (h : isUrlSafe c = true) :
    c.toNat < 128 ∧ shouldEscape c.toNat = false ∧ c.toNat ≠ 37 ∧ c ≠ '/' := by
  unfold isUrlSafe at h
  simp only [Bool.decide_or, Bool.decide_and, Bool.or_eq_true, Bool.and_eq_true,
    decide_eq_true_eq] at h
  have hslash : c ≠ '/' := by
    intro e
    subst e
    revert h
    decide
  refine ⟨by omega, ?_, by omega, hslash⟩
  unfold shouldEscape
  rcases h with h | h | h | h | h | h | h
  · simp [h]
  · simp [h]
  · simp [h]
  all_goals (rw [h]; decide)

theorem escapePath_toBytes (p : List Char)
    (h : ∀ c ∈ p, c.toNat < 128 ∧ shouldEscape c.toNat = false ∧ c.toNat ≠ 37) :
    toBytes p = p.map Char.toNat ∧ unescapePath (p.map Char.toNat) = some (p.map Char.toNat) ∧
      escapePath (p.map Char.toNat) = p := by
  induction p with
  | nil => simp [toBytes, unescapePath, escapePath]
  | cons c cs ih =>
    obtain ⟨h1, h2, h3⟩ := h c (List.mem_cons_self _ _)
    obtain ⟨i1, i2, i3⟩ := ih (fun y hy => h y (List.mem_cons_of_mem _ hy))
    refine ⟨?_, ?_, ?_⟩
    · unfold toBytes at i1 ⊢
      simp [List.flatMap_cons, utf8Bytes, h1, i1]
    · have : unescapePath (c.toNat :: cs.map Char.toNat) =
          (unescapePath (cs.map Char.toNat)).map (fun r => c.toNat :: r) := by
        rw [unescapePath]
        all_goals (intros; contradiction)
      rw [List.map_cons, this, i2]
      rfl
    · rw [List.map_cons, escapePath, h2]
      simp [i3]

theorem escapedPathAfterSet_safe (p : List Char)
    (h : ∀ c ∈ p, c.toNat < 128 ∧ shouldEscape c.toNat = false ∧ c.toNat ≠ 37) :
    escapedPathAfterSet p = p := by
  obtain ⟨h1, h2, h3⟩ := escapePath_toBytes p h
  unfold escapedPathAfterSet
  rw [h1, h2]
  simp [h3]

theorem urlJoinPath_segment (seg : List Char) (hne : seg ≠ [])
    (hdot : seg ≠ ['.']) (hdd : seg ≠ ['.', '.'])
    (hsafe : ∀ c ∈ seg, isUrlSafe c = true) :
    urlJoinPath seg = GODownloadsURL.toList ++ seg := by
  have hs : '/' ∉ seg := fun hm => (urlSafe_facts _ (hsafe _ hm)).2.2.2 rfl
  have hlast : seg.getLast? ≠ some '/' := fun e => hs (List.mem_of_getLast?_eq_some e)
  have hbase : ∀ c ∈ basePath,
      c.toNat < 128 ∧ shouldEscape c.toNat = false ∧ c.toNat ≠ 37 := by decide
  unfold urlJoinPath
  rw [pathJoin_segment seg hne hs hdot hdd]
  simp only [hlast, false_and, if_false]
  rw [escapedPathAfterSet_safe]
  · rfl
  · intro c hc
    rcases List.mem_append.1 hc with h | h
    · exact hbase c h
    · obtain ⟨a, b, d, _⟩ := urlSafe_facts c (hsafe c h)
      exact ⟨a, b, d⟩

/-! ## The `.pkg` rewrite -/

theorem hasSub_pkg_base (seg : List Char) :
    hasSub ".pkg".toList (GODownloadsURL.toList ++ seg) = hasSub ".pkg".toList seg := by
  simp [GODownloadsURL, hasSub, List.isPrefixOf]

theorem replacePkg_base (seg : List Char) :
    replacePkg (GODownloadsURL.toList ++ seg) = GODownloadsURL.toList ++ replacePkg seg := by
  simp [GODownloadsURL, replacePkg, replaceAllAux, List.isPrefixOf]

theorem replaceAllAux_no_occurrence (pat rep s : List Char) (h : hasSub pat s = false) :
    replaceAllAux pat rep 0 s = s := by
  induction s with
  | nil => rfl
  | cons c cs ih =>
    simp only [hasSub, Bool.or_eq_false_iff] at h
    rw [replaceAllAux, h.1, ih h.2]
    simp

theorem replacePkg_suffix (stem : List Char) (h : ¬ ".pkg".toList <:+: stem) :
    replacePkg (stem ++ ".pkg".toList) = stem ++ ".tar.gz".toList := by
  induction stem with
  | nil => decide
  | cons c cs ih =>
    have hcs : ¬ ".pkg".toList <:+: cs := fun e => h (List.infix_cons e)
    have hpre : ".pkg".toList.isPrefixOf (c :: cs ++ ".pkg".toList) = false := by
      cases hp : ".pkg".toList.isPrefixOf (c :: cs ++ ".pkg".toList) with
      | false => rfl
      | true =>
        exfalso
        match cs, h, hp with
        | [], _, hp => simp [List.isPrefixOf] at hp
        | [a], _, hp => simp [List.isPrefixOf] at hp
        | [a, b], _, hp => simp [List.isPrefixOf] at hp
        | a :: b :: d :: t, h, hp =>
          apply h
          simp only [String.toList, List.cons_append, List.isPrefixOf, Bool.and_eq_true,
            beq_iff_eq] at hp
          obtain ⟨h1, h2, h3, h4, _⟩ := hp
          subst h1 h2 h3 h4
          exact ⟨[], t, rfl⟩
    have ih2 := ih hcs
    unfold replacePkg at ih2 ⊢
    rw [List.cons_append, replaceAllAux]
    rw [List.cons_append] at hpre
    rw [hpre, ih2]
    simp

theorem string_toList_ne (s t : String) (h : s ≠ t) : s.toList ≠ t.toList :=
  fun e => h (String.ext e)

/-! ## Claims on `extractDownloadLinks` -/

/-- C1, evaluated on `docRepeated`: the body merges the batch of the second block
because its first Url is new, so the Url of the `linux` archive is listed twice. -/
theorem extract_repeats_url :
    (extractDownloadLinks docRepeated "").1.map (fun d => d.Url) =
        ["https://go.dev/dl/go1.19.4.src.tar.gz",
         "https://go.dev/dl/go1.19.4.linux-amd64.tar.gz",
         "https://go.dev/dl/go1.19.4.darwin-amd64.tar.gz",
         "https://go.dev/dl/go1.19.4.linux-amd64.tar.gz"] ∧
      ¬ ((extractDownloadLinks docRepeated "").1.map (fun d => d.Url)).Nodup := by
  decide

/-- C2, evaluated on `docRepeated`: the output has four entries, the reference catalog
(one entry per download anchor in pre-order, first occurrence of each Url) has three. -/
theorem extract_differs_from_reference :
    (extractDownloadLinks docRepeated "").1 ≠ referenceCatalog docRepeated "" ∧
      (extractDownloadLinks docRepeated "").1.length = 4 ∧
      (referenceCatalog docRepeated "").length = 3 := by
  decide

/-- C3, evaluated on `docLate`: in the output the `freebsd` Url comes before the
`windows` Url, although the first `windows` anchor precedes the first `freebsd` anchor
in the pre-order traversal (its batch is dropped with the repeated `linux` entry). -/
theorem extract_order_differs :
    ((extractDownloadLinks docLate "").1.map (fun d => d.Url)).indexOf
          "https://go.dev/dl/go1.19.4.freebsd-amd64.tar.gz" <
        ((extractDownloadLinks docLate "").1.map (fun d => d.Url)).indexOf
          "https://go.dev/dl/go1.19.4.windows-amd64.zip" ∧
      ((anchorEntries "" (preorder docLate)).map (fun d => d.Url)).indexOf
          "https://go.dev/dl/go1.19.4.windows-amd64.zip" <
        ((anchorEntries "" (preorder docLate)).map (fun d => d.Url)).indexOf
          "https://go.dev/dl/go1.19.4.freebsd-amd64.tar.gz" ∧
      "https://go.dev/dl/go1.19.4.freebsd-amd64.tar.gz" ∈
        (extractDownloadLinks docLate "").1.map (fun d => d.Url) ∧
      "https://go.dev/dl/go1.19.4.windows-amd64.zip" ∈
        (extractDownloadLinks docLate "").1.map (fun d => d.Url) := by
  decide

/-- C4, evaluated on `docDropped`: the `windows` anchor is visited by the traversal, and
no entry of the output has its Url (the whole second batch is dropped because its
first entry repeats the featured download). -/
theorem extract_drops_entry :
    downloadAnchor "/dl/go1.19.4.windows-amd64.zip" ∈ preorder docDropped ∧
      (downloadAnchor "/dl/go1.19.4.windows-amd64.zip").isDownloadAnchor = true ∧
      (fromLink "/dl/go1.19.4.windows-amd64.zip").Url =
        "https://go.dev/dl/go1.19.4.windows-amd64.zip" ∧
      ∀ e ∈ (extractDownloadLinks docDropped "").1,
        e.Url ≠ "https://go.dev/dl/go1.19.4.windows-amd64.zip" := by
  refine ⟨?_, by decide, by decide, by decide⟩
  simp [preorder, preorderList, docDropped, page, element, downloadAnchor,
    Node.isDownloadAnchor, anchorLoop, Node.type, Node.data, Node.attr]

/-- C5: every entry of the output belongs to a download anchor `a` of the traversal
(`pre` are the nodes visited before it), and its flags are those of the cursor current
at `a`, the identifier of the most recent section start in `pre` or else the initial
cursor: Archive iff that cursor contains `archive`, Featured iff it contains `featured`,
Unstable iff it contains `unstable`. -/
theorem flags_follow_cursor (doc : Node) (cs0 : String) (e : download)
    (he : e ∈ (extractDownloadLinks doc cs0).1) :
    ∃ pre a post, preorder doc = pre ++ a :: post ∧ a.isDownloadAnchor = true ∧
      e.Url = (fromLink (anchorLoop a.attr).2).Url ∧
      (e.Archive = true ↔ "archive".toList <:+: (cursorBefore cs0 pre).toList) ∧
      (e.Featured = true ↔ "featured".toList <:+: (cursorBefore cs0 pre).toList) ∧
      (e.Unstable = true ↔ "unstable".toList <:+: (cursorBefore cs0 pre).toList) := by
  obtain ⟨pre, a, post, h1, h2, h3⟩ :=
    mem_anchorEntries cs0 (preorder doc) e ((extract_sublist doc cs0).2.subset he)
  refine ⟨pre, a, post, h1, h2, ?_, ?_, ?_, ?_⟩
  · rw [h3]; rfl
  · rw [h3, ← hasSub_iff]; rfl
  · rw [h3, ← hasSub_iff]; rfl
  · rw [h3, ← hasSub_iff]; rfl

/-- C5 on `docArchive`: the entry found under the `archive` section. -/
theorem flags_follow_cursor_witness :
    entryArchive ∈ (extractDownloadLinks docArchive "").1 ∧
      ∃ pre a post, preorder docArchive = pre ++ a :: post ∧ a.isDownloadAnchor = true ∧
        entryArchive.Url = (fromLink (anchorLoop a.attr).2).Url ∧
        (entryArchive.Archive = true ↔
          "archive".toList <:+: (cursorBefore "" pre).toList) ∧
        (entryArchive.Featured = true ↔
          "featured".toList <:+: (cursorBefore "" pre).toList) ∧
        (entryArchive.Unstable = true ↔
          "unstable".toList <:+: (cursorBefore "" pre).toList) :=
  ⟨by decide, flags_follow_cursor docArchive "" entryArchive (by decide)⟩

/-! ## Claims on `fromLink` and `Installable` -/

/-- C6 as stated fails on its own example: without the leading `/dl/` the pattern does
not match and the fields are the sentinels. -/
theorem fromLink_bare_name_unparsed :
    ¬ ((fromLink "go1.19.4.linux-amd64.tar.gz").Version = "1.19.4" ∧
        (fromLink "go1.19.4.linux-amd64.tar.gz").OS = "linux" ∧
        (fromLink "go1.19.4.linux-amd64.tar.gz").Arch = "amd64") ∧
      (fromLink "go1.19.4.linux-amd64.tar.gz").Version = "" ∧
      (fromLink "go1.19.4.linux-amd64.tar.gz").OS = "unknown" ∧
      (fromLink "go1.19.4.linux-amd64.tar.gz").Arch = "unknown" := by
  decide

/-- C6, amended: for a link target `/dl/go<version>.<os>-<architecture><extension>`,
with version over `[a-z0-9.]`, os one of the five names, architecture over `[a-z0-9]`
and an extension that is empty or starts outside `[a-z0-9]`, `fromLink` returns these
version, os and architecture; so it does for `/dl/go1.19.4.darwin-amd64.pkg`, whose Url
is rewritten. -/
theorem fromLink_parses (version os arch ext : String)
    (hv : ∀ c ∈ version.toList, isVerChar c = true)
    (ho : os ∈ ["darwin", "freebsd", "linux", "src", "windows"])
    (ha : ∀ c ∈ arch.toList, isArchChar c = true)
    (he : ∀ c, ext.toList.head? = some c → isArchChar c = false) :
    (fromLink ("/dl/go" ++ version ++ "." ++ os ++ "-" ++ arch ++ ext)).Version = version ∧
      (fromLink ("/dl/go" ++ version ++ "." ++ os ++ "-" ++ arch ++ ext)).OS = os ∧
      (fromLink ("/dl/go" ++ version ++ "." ++ os ++ "-" ++ arch ++ ext)).Arch = arch ∧
      (fromLink "/dl/go1.19.4.darwin-amd64.pkg").Version = "1.19.4" ∧
      (fromLink "/dl/go1.19.4.darwin-amd64.pkg").OS = "darwin" ∧
      (fromLink "/dl/go1.19.4.darwin-amd64.pkg").Arch = "amd64" ∧
      (fromLink "/dl/go1.19.4.darwin-amd64.pkg").Url =
        "https://go.dev/dl/go1.19.4.darwin-amd64.tar.gz" := by
  have hl : ("/dl/go" ++ version ++ "." ++ os ++ "-" ++ arch ++ ext).toList =
      "/dl/go".toList ++
        (version.toList ++ '.' :: (os.toList ++ '-' :: (arch.toList ++ ext.toList))) := by
    simp [String.toList, String.data_append]
  have hm := platformVersionRE_of_shape version.toList os.toList arch.toList ext.toList
    hv (osNames_of_string os ho) ha he
  rw [← hl] at hm
  obtain ⟨h1, h2, h3⟩ := fromLink_of_match _ _ hm (by simp)
  exact ⟨h1, h2, h3, by decide, by decide, by decide, by decide⟩

/-- C6 on the example of the specification, with its `/dl/` prefix. -/
theorem fromLink_parses_witness :
    (fromLink ("/dl/go" ++ "1.19.4" ++ "." ++ "linux" ++ "-" ++ "amd64" ++ ".tar.gz")).Version
        = "1.19.4" ∧
      (fromLink ("/dl/go" ++ "1.19.4" ++ "." ++ "linux" ++ "-" ++ "amd64" ++ ".tar.gz")).OS
        = "linux" ∧
      (fromLink ("/dl/go" ++ "1.19.4" ++ "." ++ "linux" ++ "-" ++ "amd64" ++ ".tar.gz")).Arch
        = "amd64" ∧
      (fromLink "/dl/go1.19.4.darwin-amd64.pkg").Version = "1.19.4" ∧
      (fromLink "/dl/go1.19.4.darwin-amd64.pkg").OS = "darwin" ∧
      (fromLink "/dl/go1.19.4.darwin-amd64.pkg").Arch = "amd64" ∧
      (fromLink "/dl/go1.19.4.darwin-amd64.pkg").Url =
        "https://go.dev/dl/go1.19.4.darwin-amd64.tar.gz" :=
  fromLink_parses "1.19.4" "linux" "amd64" ".tar.gz" (by decide) (by decide) (by decide)
    (by decide)

/-- C7, evaluated on `/dl/go1.19.4.src.tar.gz`: the pattern matches without an
architecture part, the list of submatches still has five elements, so the guard
`len(pp[0]) > 3` passes and Arch is the empty group 4, not the sentinel. -/
theorem fromLink_src_arch_empty :
    platformVersionRE "/dl/go1.19.4.src.tar.gz".toList =
        some ["/dl/go1.19.4.src".toList, "1.19.4".toList, "src".toList, [], []] ∧
      (fromLink "/dl/go1.19.4.src.tar.gz").Arch = "" ∧
      (fromLink "/dl/go1.19.4.src.tar.gz").Arch ≠ DefaultDownloadValue := by
  decide

/-- C8 as stated fails: the name `go1.19.4.darwin-amd64.pkg.sha256` does not end in
`.pkg`, and yet the Url is not the base followed by the name. -/
theorem fromLink_rewrites_inner_pkg :
    ¬ (".pkg".toList <:+ "go1.19.4.darwin-amd64.pkg.sha256".toList) ∧
      (fromLink "/dl/go1.19.4.darwin-amd64.pkg.sha256").Url ≠
        "https://go.dev/dl/" ++ "go1.19.4.darwin-amd64.pkg.sha256" ∧
      (fromLink "/dl/go1.19.4.darwin-amd64.pkg.sha256").Url =
        "https://go.dev/dl/go1.19.4.darwin-amd64.tar.gz.sha256" := by
  decide

/-- C8, amended: for a link target whose final path segment `seg` is an ordinary file
name (non-empty, not `.` or `..`, unreserved characters only), the Url is the base
`https://go.dev/dl/` followed by `seg` in which every occurrence of `.pkg` is replaced
by `.tar.gz`; it is the base followed by `seg` when `seg` does not contain `.pkg`, and
a suffix `.pkg` of a name with no other `.pkg` becomes `.tar.gz`, as for
`/dl/go1.19.4.darwin-amd64.pkg`. -/
theorem fromLink_url (l seg : String)
    (hl : l = seg ∨ ∃ dir : String, l = dir ++ "/" ++ seg)
    (hne : seg ≠ "") (hdot : seg ≠ ".") (hdd : seg ≠ "..")
    (hsafe : ∀ c ∈ seg.toList, isUrlSafe c = true) :
    (fromLink l).Url = GODownloadsURL ++ String.mk (replacePkg seg.toList) ∧
      (¬ ".pkg".toList <:+: seg.toList → (fromLink l).Url = GODownloadsURL ++ seg) ∧
      (∀ stem : String, seg = stem ++ ".pkg" → ¬ ".pkg".toList <:+: stem.toList →
        (fromLink l).Url = GODownloadsURL ++ stem ++ ".tar.gz") ∧
      (fromLink "/dl/go1.19.4.darwin-amd64.pkg").Url =
        "https://go.dev/dl/go1.19.4.darwin-amd64.tar.gz" := by
  have hne2 : seg.toList ≠ [] := string_toList_ne seg "" hne
  have hdot2 : seg.toList ≠ ['.'] := string_toList_ne seg "." hdot
  have hdd2 : seg.toList ≠ ['.', '.'] := string_toList_ne seg ".." hdd
  have hs : '/' ∉ seg.toList := fun hm => (urlSafe_facts _ (hsafe _ hm)).2.2.2 rfl
  have hbase : pathBase l.toList = seg.toList := by
    rcases hl with h | ⟨dir, h⟩
    · subst h
      simpa using pathBase_segment [] l.toList (Or.inl rfl) hne2 hs
    · subst h
      have := pathBase_segment (dir.toList ++ ['/']) seg.toList (Or.inr ⟨_, rfl⟩) hne2 hs
      simpa [String.toList, String.data_append] using this
  have hurl : (fromLink l).Url =
      String.mk (GODownloadsURL.toList ++ replacePkg seg.toList) := by
    have hu : (fromLink l).Url = String.mk
        (if isPackageRE (urlJoinPath (pathBase l.toList)) = true then
          replacePkg (urlJoinPath (pathBase l.toList))
        else urlJoinPath (pathBase l.toList)) := by
      unfold fromLink
      split
      · split <;> rfl
      · rfl
    rw [hu, hbase, urlJoinPath_segment seg.toList hne2 hdot2 hdd2 hsafe]
    unfold isPackageRE
    rw [hasSub_pkg_base, replacePkg_base]
    split
    · rfl
    · rename_i hno
      simp only [Bool.not_eq_true] at hno
      unfold replacePkg
      rw [replaceAllAux_no_occurrence _ _ _ hno]
  refine ⟨?_, ?_, ?_, by decide⟩
  · rw [hurl]
    rfl
  · intro hno
    rw [hurl]
    have : hasSub ".pkg".toList seg.toList = false := by
      rw [← Bool.not_eq_true, hasSub_iff]
      exact hno
    unfold replacePkg
    rw [replaceAllAux_no_occurrence _ _ _ this]
    rfl
  · intro stem hstem hno
    rw [hurl, hstem]
    have : (stem ++ ".pkg").toList = stem.toList ++ ".pkg".toList := by
      simp [String.toList, String.data_append]
    rw [this, replacePkg_suffix _ hno]
    apply String.ext
    simp [String.toList, String.data_append]

/-- C8 on `/dl/go1.19.4.darwin-amd64.pkg`. -/
theorem fromLink_url_witness :
    (fromLink "/dl/go1.19.4.darwin-amd64.pkg").Url =
        GODownloadsURL ++ String.mk (replacePkg "go1.19.4.darwin-amd64.pkg".toList) ∧
      (¬ ".pkg".toList <:+: "go1.19.4.darwin-amd64.pkg".toList →
        (fromLink "/dl/go1.19.4.darwin-amd64.pkg").Url =
          GODownloadsURL ++ "go1.19.4.darwin-amd64.pkg") ∧
      (∀ stem : String, "go1.19.4.darwin-amd64.pkg" = stem ++ ".pkg" →
        ¬ ".pkg".toList <:+: stem.toList →
        (fromLink "/dl/go1.19.4.darwin-amd64.pkg").Url =
          GODownloadsURL ++ stem ++ ".tar.gz") ∧
      (fromLink "/dl/go1.19.4.darwin-amd64.pkg").Url =
        "https://go.dev/dl/go1.19.4.darwin-amd64.tar.gz" :=
  fromLink_url "/dl/go1.19.4.darwin-amd64.pkg" "go1.19.4.darwin-amd64.pkg"
    (Or.inr ⟨"/dl", by decide⟩) (by decide) (by decide) (by decide) (by decide)

/-- C9: for every link target that `platformVersionRE` does not match, `fromLink`
returns the entry with empty Version, OS and Arch `unknown`, and the three flags
false. -/
theorem fromLink_sentinels (l : String) (h : ¬ MatchesPlatformVersion l.toList) :
    (fromLink l).Version = "" ∧ (fromLink l).OS = "unknown" ∧
      (fromLink l).Arch = "unknown" ∧ (fromLink l).Archive = false ∧
      (fromLink l).Featured = false ∧ (fromLink l).Unstable = false := by
  have hn : platformVersionRE l.toList = none := by
    cases hm : platformVersionRE l.toList with
    | none => rfl
    | some pp0 => exact absurd (platformVersionRE_sound _ _ hm) h
  exact fromLink_of_no_match l hn

/-- C9 on a target without the `/dl/` directory. -/
theorem fromLink_sentinels_witness :
    ¬ MatchesPlatformVersion "downloads/go1.19.4.linux-amd64.tar.gz".toList ∧
      (fromLink "downloads/go1.19.4.linux-amd64.tar.gz").Version = "" ∧
      (fromLink "downloads/go1.19.4.linux-amd64.tar.gz").OS = "unknown" ∧
      (fromLink "downloads/go1.19.4.linux-amd64.tar.gz").Arch = "unknown" ∧
      (fromLink "downloads/go1.19.4.linux-amd64.tar.gz").Archive = false ∧
      (fromLink "downloads/go1.19.4.linux-amd64.tar.gz").Featured = false ∧
      (fromLink "downloads/go1.19.4.linux-amd64.tar.gz").Unstable = false :=
  have hno : ¬ MatchesPlatformVersion "downloads/go1.19.4.linux-amd64.tar.gz".toList :=
    fun hm => absurd (platformVersionRE_complete _ hm) (by decide)
  ⟨hno, fromLink_sentinels "downloads/go1.19.4.linux-amd64.tar.gz" hno⟩

/-- C10: an entry is installable iff its OS is not `src`, its Arch is the host
architecture and its OS is the host OS; an entry with OS `src` is rejected on every
host. -/
theorem installable_iff (d : download) (GOOS GOARCH : String) :
    (d.Installable GOOS GOARCH = true ↔ d.OS ≠ "src" ∧ d.Arch = GOARCH ∧ d.OS = GOOS) ∧
      ({ d with OS := "src" } : download).Installable GOOS GOARCH = false := by
  unfold download.Installable
  constructor
  · by_cases h1 : d.OS = "src" <;> by_cases h2 : d.Arch = GOARCH <;>
      by_cases h3 : d.OS = GOOS <;> simp [h1, h2, h3]
  · simp

/-! ## The resolver -/

theorem resolveLoop_exact (tok GOOS GOARCH : String) (lnks : List download) (dl d : download)
    (h : lnks.find? (fun x => x.Version = tok ∧ x.Installable GOOS GOARCH = true) = some d) :
    resolveLoop tok GOOS GOARCH lnks dl = d := by
  induction lnks generalizing dl with
  | nil => simp at h
  | cons x rest ih =>
    rw [resolveLoop]
    by_cases hx : x.Version = tok ∧ x.Installable GOOS GOARCH = true
    · rw [if_pos hx]
      rw [List.find?_cons_of_pos _ (by simpa using hx)] at h
      exact Option.some.inj h
    · rw [if_neg hx]
      rw [List.find?_cons_of_neg _ (by simpa using hx)] at h
      exact ih _ h

theorem resolveLoop_keyword (tok GOOS GOARCH : String) (lnks : List download) (dl : download)
    (h : ∀ d ∈ lnks, ¬ (d.Version = tok ∧ d.Installable GOOS GOARCH = true)) :
    resolveLoop tok GOOS GOARCH lnks dl =
      ((lnks.filter (keywordMatch tok GOOS GOARCH)).getLast?).getD dl := by
  induction lnks generalizing dl with
  | nil => simp [resolveLoop]
  | cons x rest ih =>
    have hx := h x (List.mem_cons_self _ _)
    rw [resolveLoop, if_neg hx, ih _ (fun d hd => h d (List.mem_cons_of_mem _ hd))]
    by_cases hk : keywordMatch tok GOOS GOARCH x = true
    · rw [List.filter_cons_of_pos hk]
      have hdl : (if isUnstableRE tok = true ∧ x.Unstable = true ∧
            x.Installable GOOS GOARCH = true then x
          else if latestRE tok = true ∧ x.Featured = true ∧
            x.Installable GOOS GOARCH = true then x else dl) = x := by
        unfold keywordMatch at hk
        simp only [Bool.decide_and, Bool.decide_or, Bool.and_eq_true, Bool.or_eq_true,
          decide_eq_true_eq] at hk
        split
        · rfl
        · split
          · rfl
          · rename_i h1 h2
            exfalso
            rcases hk.2 with h3 | h3
            · exact h2 ⟨h3.1, h3.2, hk.1⟩
            · exact h1 ⟨h3.1, h3.2, hk.1⟩
      simp only [hdl]
      cases hr : (rest.filter (keywordMatch tok GOOS GOARCH)).getLast? with
      | none =>
        have : rest.filter (keywordMatch tok GOOS GOARCH) = [] := by
          simpa using hr
        simp [this]
      | some y =>
        rw [List.getLast?_cons, hr]
        simp
    · rw [List.filter_cons_of_neg hk]
      have hdl : (if isUnstableRE tok = true ∧ x.Unstable = true ∧
            x.Installable GOOS GOARCH = true then x
          else if latestRE tok = true ∧ x.Featured = true ∧
            x.Installable GOOS GOARCH = true then x else dl) = dl := by
        unfold keywordMatch at hk
        simp only [Bool.decide_and, Bool.decide_or, Bool.and_eq_true, Bool.or_eq_true,
          decide_eq_true_eq] at hk
        split
        · rename_i h1
          exact absurd ⟨h1.2.2, Or.inr ⟨h1.1, h1.2.1⟩⟩ hk
        · split
          · rename_i h1 h2
            exact absurd ⟨h2.2.2, Or.inl ⟨h2.1, h2.2.1⟩⟩ hk
          · rfl
      simp only [hdl]

theorem resolveLoop_cases (tok GOOS GOARCH : String) (lnks : List download) (dl : download) :
    (resolveLoop tok GOOS GOARCH lnks dl = dl ∧
        ∀ d ∈ lnks, qualifies tok GOOS GOARCH d = false) ∨
      (resolveLoop tok GOOS GOARCH lnks dl ∈ lnks ∧
        qualifies tok GOOS GOARCH (resolveLoop tok GOOS GOARCH lnks dl) = true) := by
  induction lnks generalizing dl with
  | nil => simp [resolveLoop]
  | cons x rest ih =>
    rw [resolveLoop]
    by_cases hx : x.Version = tok ∧ x.Installable GOOS GOARCH = true
    · rw [if_pos hx]
      right
      exact ⟨List.mem_cons_self _ _, by simp [qualifies, hx.1, hx.2]⟩
    · rw [if_neg hx]
      simp only []
      by_cases hu : isUnstableRE tok = true ∧ x.Unstable = true ∧
          x.Installable GOOS GOARCH = true
      · rw [if_pos hu]
        rcases ih x with ⟨h1, h2⟩ | ⟨h1, h2⟩
        · right
          rw [h1]
          exact ⟨List.mem_cons_self _ _, by simp [qualifies, hu.1, hu.2.1, hu.2.2]⟩
        · right
          exact ⟨List.mem_cons_of_mem _ h1, h2⟩
      · rw [if_neg hu]
        by_cases hf : latestRE tok = true ∧ x.Featured = true ∧
            x.Installable GOOS GOARCH = true
        · rw [if_pos hf]
          rcases ih x with ⟨h1, h2⟩ | ⟨h1, h2⟩
          · right
            rw [h1]
            exact ⟨List.mem_cons_self _ _, by simp [qualifies, hf.1, hf.2.1, hf.2.2]⟩
          · right
            exact ⟨List.mem_cons_of_mem _ h1, h2⟩
        · rw [if_neg hf]
          rcases ih dl with ⟨h1, h2⟩ | ⟨h1, h2⟩
          · left
            refine ⟨h1, ?_⟩
            intro d hd
            rcases List.mem_cons.1 hd with hd | hd
            · subst hd
              unfold qualifies
              simp only [Bool.decide_and, Bool.decide_or, Bool.and_eq_false_imp,
                decide_eq_true_eq]
              intro hi
              simp only [Bool.or_eq_false_iff, Bool.and_eq_false_imp, decide_eq_false_iff_not,
                decide_eq_true_eq]
              exact ⟨fun hv => hx ⟨hv, hi⟩, fun hl hft => hf ⟨hl, hft, hi⟩,
                fun hl hun => hu ⟨hl, hun, hi⟩⟩
            · exact h2 d hd
          · right
            exact ⟨List.mem_cons_of_mem _ h1, h2⟩

theorem installable_os (GOOS GOARCH : String) (d : download) :
    d.Installable GOOS GOARCH = true ↔ d.OS ≠ "src" ∧ d.Arch = GOARCH ∧ d.OS = GOOS := by
  unfold download.Installable
  by_cases h1 : d.OS = "src" <;> by_cases h2 : d.Arch = GOARCH <;>
    by_cases h3 : d.OS = GOOS <;> simp [h1, h2, h3]

theorem keywordMatch_latest (GOOS GOARCH : String) (d : download) :
    keywordMatch "latest" GOOS GOARCH d =
      (decide (d.Featured = true ∧ d.Installable GOOS GOARCH = true)) := by
  have h1 : latestRE "latest" = true := by decide
  have h2 : isUnstableRE "latest" = false := by decide
  unfold keywordMatch
  rw [h1, h2]
  cases d.Featured <;> cases d.Installable GOOS GOARCH <;> simp

theorem keywordMatch_unstable (GOOS GOARCH : String) (d : download) :
    keywordMatch "unstable" GOOS GOARCH d =
      (decide ((d.Featured = true ∨ d.Unstable = true) ∧ d.Installable GOOS GOARCH = true)) := by
  have h1 : latestRE "unstable" = true := by decide
  have h2 : isUnstableRE "unstable" = true := by decide
  unfold keywordMatch
  rw [h1, h2]
  cases d.Featured <;> cases d.Unstable <;> cases d.Installable GOOS GOARCH <;> simp

theorem installable_ne_zero (GOOS GOARCH : String) (d : download) (hos : GOOS ≠ "")
    (h : d.Installable GOOS GOARCH = true) : d ≠ zeroDownload := by
  intro e
  have h2 := ((installable_os GOOS GOARCH d).1 h)
  rw [e] at h2
  exact hos h2.2.2.symm

/-! ## Claims on the resolver -/

/-- C11: when `d` is the first installable entry of the catalog whose Version is the
token (no such entry in `pre`), the resolver loop selects `d`, whatever featured or
unstable entries stand before or after it; on a host with a non-empty OS identifier it
is the entry handed to the installer. -/
theorem resolve_first_exact (pre post : List download) (d : download)
    (tok GOOS GOARCH : String)
    (hd : d.Version = tok ∧ d.Installable GOOS GOARCH = true)
    (hpre : ∀ x ∈ pre, ¬ (x.Version = tok ∧ x.Installable GOOS GOARCH = true)) :
    resolveLoop tok GOOS GOARCH (pre ++ d :: post) zeroDownload = d ∧
      (GOOS ≠ "" → resolve (pre ++ d :: post) tok GOOS GOARCH = some d) := by
  have hfind : (pre ++ d :: post).find?
      (fun x => x.Version = tok ∧ x.Installable GOOS GOARCH = true) = some d := by
    induction pre with
    | nil => exact List.find?_cons_of_pos _ (by simpa using hd)
    | cons x xs ih =>
      rw [List.cons_append, List.find?_cons_of_neg _
        (by simpa using hpre x (List.mem_cons_self _ _))]
      exact ih (fun y hy => hpre y (List.mem_cons_of_mem _ hy))
  have hloop := resolveLoop_exact tok GOOS GOARCH _ zeroDownload d hfind
  refine ⟨hloop, fun hos => ?_⟩
  unfold resolve
  simp only [hloop]
  rw [if_neg (installable_ne_zero GOOS GOARCH d hos hd.2)]

/-- C11 on `catalogLinux`: the token `1.19.4` selects the second entry, after an
unstable entry and before another featured one. -/
theorem resolve_first_exact_witness :
    resolveLoop "1.19.4" "linux" "amd64" ([entryRc] ++ entry1194 :: [entry1189, entry117])
        zeroDownload = entry1194 ∧
      ("linux" ≠ "" →
        resolve ([entryRc] ++ entry1194 :: [entry1189, entry117]) "1.19.4" "linux" "amd64" =
          some entry1194) :=
  resolve_first_exact [entryRc] [entry1189, entry117] entry1194 "1.19.4" "linux" "amd64"
    (by decide) (by decide)

/-- C12: in a catalog with no installable entry of Version `latest`, the token `latest`
makes the loop end with the last entry that is Featured and installable (the zero value
when there is none); an entry selected for `latest` is Featured, so one flagged only
Unstable is never selected. -/
theorem resolve_latest (lnks : List download) (GOOS GOARCH : String)
    (h : ∀ d ∈ lnks, ¬ (d.Version = "latest" ∧ d.Installable GOOS GOARCH = true)) :
    resolveLoop "latest" GOOS GOARCH lnks zeroDownload =
        ((lnks.filter (fun d => d.Featured = true ∧ d.Installable GOOS GOARCH = true)).getLast?).getD
          zeroDownload ∧
      ∀ d, resolve lnks "latest" GOOS GOARCH = some d →
        d ∈ lnks ∧ d.Featured = true ∧ d.Installable GOOS GOARCH = true := by
  have hloop := resolveLoop_keyword "latest" GOOS GOARCH lnks zeroDownload h
  have hfilter : lnks.filter (keywordMatch "latest" GOOS GOARCH) =
      lnks.filter (fun d => d.Featured = true ∧ d.Installable GOOS GOARCH = true) := by
    apply List.filter_congr
    intro d _
    exact keywordMatch_latest GOOS GOARCH d
  rw [hfilter] at hloop
  refine ⟨hloop, ?_⟩
  intro d hd
  unfold resolve at hd
  simp only [hloop] at hd
  split at hd
  · simp at hd
  · rename_i hne
    have hd2 := Option.some.inj hd
    cases hl : (lnks.filter
        (fun d => d.Featured = true ∧ d.Installable GOOS GOARCH = true)).getLast? with
    | none => rw [hl] at hne; exact absurd rfl hne
    | some y =>
      rw [hl] at hd2
      simp only [Option.getD_some] at hd2
      subst hd2
      have hm := List.mem_of_getLast?_eq_some hl
      rw [List.mem_filter] at hm
      exact ⟨hm.1, by simpa using hm.2⟩

/-- C12 on `catalogLinux`: `latest` selects the entry `1.18.9`, the later of the two
featured entries. -/
theorem resolve_latest_witness :
    resolveLoop "latest" "linux" "amd64" catalogLinux zeroDownload =
        ((catalogLinux.filter
          (fun d => d.Featured = true ∧ d.Installable "linux" "amd64" = true)).getLast?).getD
          zeroDownload ∧
      ∀ d, resolve catalogLinux "latest" "linux" "amd64" = some d →
        d ∈ catalogLinux ∧ d.Featured = true ∧ d.Installable "linux" "amd64" = true :=
  resolve_latest catalogLinux "linux" "amd64" (by decide)

/-- C13: on a host with a non-empty OS identifier the resolver reports `not found` iff
no entry of the catalog qualifies, and otherwise selects an entry of the catalog that
qualifies; it is a total function, so there is no other outcome. -/
theorem resolve_not_found_iff (lnks : List download) (tok GOOS GOARCH : String)
    (hos : GOOS ≠ "") :
    (resolve lnks tok GOOS GOARCH = none ↔
        ∀ d ∈ lnks, qualifies tok GOOS GOARCH d = false) ∧
      ∀ d, resolve lnks tok GOOS GOARCH = some d →
        d ∈ lnks ∧ qualifies tok GOOS GOARCH d = true := by
  have hq : ∀ d, qualifies tok GOOS GOARCH d = true → d ≠ zeroDownload := by
    intro d hd
    apply installable_ne_zero GOOS GOARCH d hos
    unfold qualifies at hd
    simp only [Bool.decide_and, Bool.and_eq_true, decide_eq_true_eq] at hd
    exact hd.1
  unfold resolve
  rcases resolveLoop_cases tok GOOS GOARCH lnks zeroDownload with ⟨h1, h2⟩ | ⟨h1, h2⟩
  · simp only [h1, if_true]
    exact ⟨⟨fun _ => h2, fun _ => trivial⟩, fun d hd => by simp at hd⟩
  · have hne := hq _ h2
    simp only [if_neg hne]
    refine ⟨⟨fun hn => by simp at hn, fun hall => ?_⟩, ?_⟩
    · rw [hall _ h1] at h2
      exact absurd h2 (by simp)
    · intro d hd
      have := Option.some.inj hd
      subst this
      exact ⟨h1, h2⟩

/-- C13 on `catalogLinux` and the token `1.16`, which no entry qualifies for. -/
theorem resolve_not_found_iff_witness :
    (resolve catalogLinux "1.16" "linux" "amd64" = none ↔
        ∀ d ∈ catalogLinux, qualifies "1.16" "linux" "amd64" d = false) ∧
      ∀ d, resolve catalogLinux "1.16" "linux" "amd64" = some d →
        d ∈ catalogLinux ∧ qualifies "1.16" "linux" "amd64" d = true :=
  resolve_not_found_iff catalogLinux "1.16" "linux" "amd64" (by decide)

/-- C19: the token `unstable` matches `feature|latest|stable` and `unstable`; in a
catalog with no installable entry of Version `unstable` the loop ends with the last
installable entry that is Featured or Unstable, and on `catalogLinux` that entry is
Featured and not Unstable. -/
theorem resolve_unstable (lnks : List download) (GOOS GOARCH : String)
    (h : ∀ d ∈ lnks, ¬ (d.Version = "unstable" ∧ d.Installable GOOS GOARCH = true)) :
    latestRE "unstable" = true ∧ isUnstableRE "unstable" = true ∧
      resolveLoop "unstable" GOOS GOARCH lnks zeroDownload =
        ((lnks.filter (fun d => (d.Featured = true ∨ d.Unstable = true) ∧
          d.Installable GOOS GOARCH = true)).getLast?).getD zeroDownload ∧
      ∃ d, resolve catalogLinux "unstable" "linux" "amd64" = some d ∧
        d.Featured = true ∧ d.Unstable = false := by
  have hloop := resolveLoop_keyword "unstable" GOOS GOARCH lnks zeroDownload h
  have hfilter : lnks.filter (keywordMatch "unstable" GOOS GOARCH) =
      lnks.filter (fun d => (d.Featured = true ∨ d.Unstable = true) ∧
        d.Installable GOOS GOARCH = true) := by
    apply List.filter_congr
    intro d _
    exact keywordMatch_unstable GOOS GOARCH d
  rw [hfilter] at hloop
  exact ⟨by decide, by decide, hloop, entry1189, by decide, by decide, by decide⟩

/-- C19 on `catalogLinux`. -/
theorem resolve_unstable_witness :
    latestRE "unstable" = true ∧ isUnstableRE "unstable" = true ∧
      resolveLoop "unstable" "linux" "amd64" catalogLinux zeroDownload =
        ((catalogLinux.filter (fun d => (d.Featured = true ∨ d.Unstable = true) ∧
          d.Installable "linux" "amd64" = true)).getLast?).getD zeroDownload ∧
      ∃ d, resolve catalogLinux "unstable" "linux" "amd64" = some d ∧
        d.Featured = true ∧ d.Unstable = false :=
  resolve_unstable catalogLinux "linux" "amd64" (by decide)
/-! ## The installer -/

theorem mkdir_eq_some (umask : Nat) (fs fs1 : FS) (name : String) (perm : Nat)
    (h : mkdir umask fs name perm = some fs1) :
    fs name = none ∧ fs1 = fs.set name (.dir (createMode umask (syscallMode perm))) := by
  unfold mkdir at h
  split at h
  · simp at h
  · rename_i hn
    split at h
    · exact ⟨hn, (Option.some.inj h).symm⟩
    · simp at h

theorem openFile_eq_some (umask : Nat) (fs fs1 : FS) (name : String) (perm : Nat)
    (h : openFile umask fs name perm = some fs1) :
    (isFileAt fs name = true ∧ fs1 = fs) ∨
      (fs name = none ∧
        fs1 = fs.set name (.file (createMode umask (syscallMode perm)) [])) := by
  unfold openFile at h
  split at h
  · rename_i hn
    left
    exact ⟨by simp [isFileAt, hn], (Option.some.inj h).symm⟩
  · simp at h
  · rename_i hn
    split at h
    · right
      exact ⟨hn, (Option.some.inj h).symm⟩
    · simp at h

theorem writeFile_cases (fs : FS) (name : String) (bytes : List Nat) :
    writeFile fs name bytes = fs ∨
      ∃ perm old, fs name = some (.file perm old) ∧
        writeFile fs name bytes =
          fs.set name (.file perm (bytes ++ old.drop bytes.length)) := by
  unfold writeFile
  cases hn : fs name with
  | none => exact Or.inl rfl
  | some o =>
    cases o with
    | dir m => exact Or.inl rfl
    | file m d => exact Or.inr ⟨m, d, rfl, rfl⟩

theorem writeFile_other (fs : FS) (name p : String) (bytes : List Nat) (h : p ≠ name) :
    writeFile fs name bytes p = fs p := by
  rcases writeFile_cases fs name bytes with h1 | ⟨perm, old, _, h1⟩
  · rw [h1]
  · rw [h1]
    simp [FS.set, h]

theorem writeFile_isFileAt (fs : FS) (name p : String) (bytes : List Nat) :
    isFileAt (writeFile fs name bytes) p = isFileAt fs p := by
  rcases writeFile_cases fs name bytes with h1 | ⟨perm, old, hn, h1⟩
  · rw [h1]
  · rw [h1]
    by_cases hp : p = name
    · subst hp
      simp [isFileAt, FS.set, hn]
    · simp [isFileAt, FS.set, hp]

theorem writeFile_isDirAt (fs : FS) (name p : String) (bytes : List Nat) :
    isDirAt (writeFile fs name bytes) p = isDirAt fs p := by
  rcases writeFile_cases fs name bytes with h1 | ⟨perm, old, hn, h1⟩
  · rw [h1]
  · rw [h1]
    by_cases hp : p = name
    · subst hp
      simp [isDirAt, FS.set, hn]
    · simp [isDirAt, FS.set, hp]

theorem set_kind_of_none (fs : FS) (name p : String) (o : FsObj) (hn : fs name = none) :
    (isDirAt fs p = true → isDirAt (fs.set name o) p = true) ∧
      (isFileAt fs p = true → isFileAt (fs.set name o) p = true) := by
  by_cases hp : p = name
  · subst hp
    simp [isDirAt, isFileAt, hn]
  · simp [isDirAt, isFileAt, FS.set, hp]

theorem extractLoop_touches (umask : Nat) (df : String) (es : List TarEntry) (nextErr : Bool) (fs : FS)
    (p : String) :
    (extractLoop umask df es nextErr fs).1 p = fs p ∨
      ∃ e ∈ es, p = joinName df e.header.Name := by
  induction es generalizing fs with
  | nil =>
    left
    unfold extractLoop
    split <;> rfl
  | cons e rest ih =>
    have lift : ∀ fs1 : FS, (∀ q, q ≠ joinName df e.header.Name → fs1 q = fs q) →
        ((extractLoop umask df rest nextErr fs1).1 p = fs p ∨
          ∃ x ∈ e :: rest, p = joinName df x.header.Name) := by
      intro fs1 hfs1
      by_cases hp : p = joinName df e.header.Name
      · exact Or.inr ⟨e, List.mem_cons_self _ _, hp⟩
      · rcases ih fs1 with h | ⟨x, hx, hxp⟩
        · exact Or.inl (by rw [h, hfs1 p hp])
        · exact Or.inr ⟨x, List.mem_cons_of_mem _ hx, hxp⟩
    rw [extractLoop]
    split
    · cases hm : mkdir umask fs (joinName df e.header.Name) 0o755 with
      | none => exact Or.inl rfl
      | some fs1 =>
        simp only []
        apply lift
        intro q hq
        rw [(mkdir_eq_some _ _ _ _ _ hm).2]
        simp [FS.set, hq]
    · split
      · cases hm : openFile umask fs (joinName df e.header.Name) (e.header.Mode % 2 ^ 32) with
        | none => exact Or.inl rfl
        | some fs1 =>
          simp only []
          have hfs1 : ∀ q, q ≠ joinName df e.header.Name →
              writeFile fs1 (joinName df e.header.Name) e.payload q = fs q := by
            intro q hq
            rw [writeFile_other _ _ _ _ hq]
            rcases openFile_eq_some _ _ _ _ _ hm with ⟨_, h⟩ | ⟨_, h⟩
            · rw [h]
            · rw [h]
              simp [FS.set, hq]
          split
          · by_cases hp : p = joinName df e.header.Name
            · exact Or.inr ⟨e, List.mem_cons_self _ _, hp⟩
            · exact Or.inl (hfs1 p hp)
          · exact lift _ hfs1
      · exact Or.inl rfl

theorem extractLoop_keeps_kind (umask : Nat) (df : String) (es : List TarEntry) (nextErr : Bool) (fs : FS)
    (p : String) :
    (isDirAt fs p = true → isDirAt (extractLoop umask df es nextErr fs).1 p = true) ∧
      (isFileAt fs p = true → isFileAt (extractLoop umask df es nextErr fs).1 p = true) := by
  induction es generalizing fs with
  | nil =>
    unfold extractLoop
    split <;> exact ⟨id, id⟩
  | cons e rest ih =>
    rw [extractLoop]
    split
    · cases hm : mkdir umask fs (joinName df e.header.Name) 0o755 with
      | none => exact ⟨id, id⟩
      | some fs1 =>
        simp only []
        obtain ⟨hn, hfs1⟩ := mkdir_eq_some _ _ _ _ _ hm
        have hk := set_kind_of_none fs (joinName df e.header.Name) p
          (.dir (createMode umask (syscallMode 0o755))) hn
        rw [← hfs1] at hk
        exact ⟨fun h => (ih fs1).1 (hk.1 h), fun h => (ih fs1).2 (hk.2 h)⟩
    · split
      · cases hm : openFile umask fs (joinName df e.header.Name) (e.header.Mode % 2 ^ 32) with
        | none => exact ⟨id, id⟩
        | some fs1 =>
          simp only []
          have hk : (isDirAt fs p = true → isDirAt fs1 p = true) ∧
              (isFileAt fs p = true → isFileAt fs1 p = true) := by
            rcases openFile_eq_some _ _ _ _ _ hm with ⟨_, h⟩ | ⟨hn, h⟩
            · rw [h]
              exact ⟨id, id⟩
            · rw [h]
              exact set_kind_of_none fs _ p _ hn
          have hw : (isDirAt fs p = true →
                isDirAt (writeFile fs1 (joinName df e.header.Name) e.payload) p = true) ∧
              (isFileAt fs p = true →
                isFileAt (writeFile fs1 (joinName df e.header.Name) e.payload) p = true) := by
            rw [writeFile_isDirAt, writeFile_isFileAt]
            exact hk
          split
          · exact hw
          · exact ⟨fun h => (ih _).1 (hw.1 h), fun h => (ih _).2 (hw.2 h)⟩
      · exact ⟨id, id⟩

theorem extractLoop_created (umask : Nat) (df : String) (es : List TarEntry) (fs : FS)
    (h : (extractLoop umask df es false fs).2 = Outcome.installed) :
    ∀ e ∈ es,
      (e.header.Typeflag = TypeDir →
        isDirAt (extractLoop umask df es false fs).1 (joinName df e.header.Name) = true) ∧
      (e.header.Typeflag = TypeReg →
        isFileAt (extractLoop umask df es false fs).1 (joinName df e.header.Name) = true) := by
  induction es generalizing fs with
  | nil => intro e he; simp at he
  | cons x rest ih =>
    have hreg_ne : TypeReg ≠ TypeDir := by decide
    rw [extractLoop] at h ⊢
    split at h
    · rename_i hd
      rw [if_pos hd]
      cases hm : mkdir umask fs (joinName df x.header.Name) 0o755 with
      | none => rw [hm] at h; simp at h
      | some fs1 =>
        rw [hm] at h
        simp only [] at h ⊢
        intro e he
        rcases List.mem_cons.1 he with he | he
        · subst he
          have hfs1 := (mkdir_eq_some _ _ _ _ _ hm).2
          have hdir : isDirAt fs1 (joinName df e.header.Name) = true := by
            rw [hfs1]
            simp [isDirAt, FS.set]
          refine ⟨fun _ => (extractLoop_keeps_kind umask df rest false fs1 _).1 hdir, ?_⟩
          intro hr
          rw [hr] at hd
          exact absurd hd hreg_ne
        · exact ih fs1 h e he
    · rename_i hd
      rw [if_neg hd]
      split at h
      · rename_i hr
        rw [if_pos hr]
        cases hm : openFile umask fs (joinName df x.header.Name) (x.header.Mode % 2 ^ 32) with
        | none => rw [hm] at h; simp at h
        | some fs1 =>
          rw [hm] at h
          simp only [] at h ⊢
          split at h
          · simp at h
          · rename_i hre
            rw [if_neg hre]
            intro e he
            rcases List.mem_cons.1 he with he | he
            · subst he
              have hfile : isFileAt (writeFile fs1 (joinName df e.header.Name) e.payload)
                  (joinName df e.header.Name) = true := by
                rw [writeFile_isFileAt]
                rcases openFile_eq_some _ _ _ _ _ hm with ⟨h1, h2⟩ | ⟨_, h2⟩
                · rw [h2]; exact h1
                · rw [h2]
                  simp [isFileAt, FS.set]
              exact ⟨fun hd2 => absurd hd2 hd,
                fun _ => (extractLoop_keeps_kind umask df rest false _ _).2 hfile⟩
            · exact ih _ h e he
      · simp at h

theorem extractLoop_unknown (umask : Nat) (df : String) (pre post : List TarEntry) (bad : TarEntry)
    (nextErr : Bool) (fs : FS)
    (hpre : ∀ e ∈ pre, e.header.Typeflag = TypeDir ∨ e.header.Typeflag = TypeReg)
    (hbad : bad.header.Typeflag ≠ TypeDir ∧ bad.header.Typeflag ≠ TypeReg) :
    extractLoop umask df (pre ++ bad :: post) nextErr fs =
      if (extractLoop umask df pre false fs).2 = Outcome.installed then
        ((extractLoop umask df pre false fs).1, Outcome.unknownType)
      else extractLoop umask df pre false fs := by
  induction pre generalizing fs with
  | nil =>
    simp [extractLoop, hbad.1, hbad.2]
  | cons x rest ih =>
    have ih2 := fun fs1 => ih fs1 (fun e he => hpre e (List.mem_cons_of_mem _ he))
    rw [List.cons_append, extractLoop, extractLoop]
    rcases hpre x (List.mem_cons_self _ _) with hd | hr
    · rw [if_pos hd, if_pos hd]
      cases hm : mkdir umask fs (joinName df x.header.Name) 0o755 with
      | none => simp
      | some fs1 => exact ih2 fs1
    · have hd : x.header.Typeflag ≠ TypeDir := by rw [hr]; decide
      rw [if_neg hd, if_neg hd, if_pos hr, if_pos hr]
      cases hm : openFile umask fs (joinName df x.header.Name) (x.header.Mode % 2 ^ 32) with
      | none => simp
      | some fs1 =>
        simp only []
        split
        · simp
        · exact ih2 _

theorem createMode_permBits (umask mode : Nat) :
    createMode umask (syscallMode (mode % 2 ^ 32)) % 512 =
      (mode % 512) &&& (0o777 ^^^ (umask % 512)) := by
  have h511 : (511 : Nat) = 2 ^ 9 - 1 := by norm_num
  have h4095 : (4095 : Nat) = 2 ^ 12 - 1 := by norm_num
  have h2048 : (2048 : Nat) = 2 ^ 11 := by norm_num
  have h1024 : (1024 : Nat) = 2 ^ 10 := by norm_num
  have h512 : (512 : Nat) = 2 ^ 9 := by norm_num
  apply Nat.eq_of_testBit_eq
  intro i
  unfold createMode syscallMode
  rw [h512]
  simp only [Nat.testBit_mod_two_pow, Nat.testBit_and, Nat.testBit_or, Nat.testBit_xor]
  rw [h511, h4095]
  simp only [Nat.testBit_two_pow_sub_one, Nat.testBit_and, Nat.testBit_mod_two_pow]
  by_cases hi : i < 9
  · have h12 : i < 12 := by omega
    have h32 : i < 32 := by omega
    have a : ∀ (p : Prop) [Decidable p], (if p then 0 else 2048).testBit i = false := by
      intro p _
      split
      · simp
      · rw [h2048, Nat.testBit_two_pow]; simp; omega
    have b : ∀ (p : Prop) [Decidable p], (if p then 0 else 1024).testBit i = false := by
      intro p _
      split
      · simp
      · rw [h1024, Nat.testBit_two_pow]; simp; omega
    have c : ∀ (p : Prop) [Decidable p], (if p then 0 else 512).testBit i = false := by
      intro p _
      split
      · simp
      · rw [h512, Nat.testBit_two_pow]; simp; omega
    simp [hi, h12, h32, a, b, c]
  · simp [hi]

theorem maskOff_zero (bits umask : Nat) (h : umask % 512 = 0) :
    (bits % 512) &&& (0o777 ^^^ (umask % 512)) = bits % 512 := by
  rw [h]
  have h511 : (0o777 ^^^ 0 : Nat) = 2 ^ 9 - 1 := by decide
  rw [h511, Nat.and_pow_two_sub_one_eq_mod]
  omega

theorem createMode_setuid_example :
    createMode 0o022 (syscallMode (0o4755 % 2 ^ 32)) = 0o755 ∧
      createMode 0 (syscallMode (0o666 % 2 ^ 32)) = 0o666 ∧
      createMode 0o022 (syscallMode (0o666 % 2 ^ 32)) = 0o644 := by
  decide
/-! ## Passes from different cursors -/

theorem fromLink_flags (l : String) :
    (fromLink l).Archive = false ∧ (fromLink l).Featured = false ∧
      (fromLink l).Unstable = false := by
  unfold fromLink
  split
  · split <;> exact ⟨rfl, rfl, rfl⟩
  · exact ⟨rfl, rfl, rfl⟩

theorem unflag_entryAt (cs cs2 : String) (n : Node) :
    unflag (entryAt cs n) = unflag (entryAt cs2 n) := rfl

theorem mergeBatch_unflag (l l2 t t2 : List download)
    (hl : l.map unflag = l2.map unflag) (ht : t.map unflag = t2.map unflag) :
    (mergeBatch l t).map unflag = (mergeBatch l2 t2).map unflag := by
  have hany : ∀ (l : List download) (u : String),
      l.any (fun lnk => decide (lnk.Url = u)) =
        (l.map unflag).any (fun lnk => decide (lnk.Url = u)) := by
    intro l u
    induction l with
    | nil => rfl
    | cons x xs ih =>
      rw [List.any_cons, List.map_cons, List.any_cons, ih]
      rfl
  cases t with
  | nil =>
    cases t2 with
    | nil => simpa [mergeBatch] using hl
    | cons y ys => simp at ht
  | cons x xs =>
    cases t2 with
    | nil => simp at ht
    | cons y ys =>
      have hxy : x.Url = y.Url := by
        show (unflag x).Url = (unflag y).Url
        have := (List.cons.inj (by simpa using ht : unflag x :: xs.map unflag =
          unflag y :: ys.map unflag)).1
        exact congrArg download.Url this
      unfold mergeBatch
      simp only []
      rw [hany l x.Url, hany l2 y.Url, hl, hxy]
      split
      · exact hl
      · rw [List.map_append, List.map_append, hl, ht]

mutual
theorem extract_unflag : ∀ (n : Node) (cs cs2 : String),
    (extractDownloadLinks n cs).1.map unflag = (extractDownloadLinks n cs2).1.map unflag
  | .mk type data attr children, cs, cs2 => by
    have ih := childLoop_unflag children [] []
      (cursorStep cs (.mk type data attr children))
      (cursorStep cs2 (.mk type data attr children)) rfl
    unfold extractDownloadLinks
    by_cases hn : Node.isDownloadAnchor (.mk type data attr children) = true
    · simp only [hn, if_true, List.map_cons, List.map_nil]
      rw [unflag_entryAt]
    · simp only [hn, Bool.false_eq_true, if_false]
      exact ih
theorem childLoop_unflag : ∀ (ch : List Node) (lnks lnks2 : List download) (cs cs2 : String),
    lnks.map unflag = lnks2.map unflag →
      (childLoop ch lnks cs).1.map unflag = (childLoop ch lnks2 cs2).1.map unflag
  | [], lnks, lnks2, cs, cs2, h => by
    unfold childLoop
    exact h
  | cn :: rest, lnks, lnks2, cs, cs2, h => by
    unfold childLoop
    exact childLoop_unflag rest _ _ _ _
      (mergeBatch_unflag _ _ _ _ h (extract_unflag cn cs cs2))
end

theorem cursor_settles (cs0 : String) (ns : List Node) :
    ns.foldl cursorStep (ns.foldl cursorStep cs0) = ns.foldl cursorStep cs0 := by
  rw [← cursorBefore_eq_foldl, ← cursorBefore_eq_foldl]
  unfold cursorBefore
  cases ns.reverse.findSome? sectionStart <;> rfl

theorem cursor_unchanged (cs0 : String) (ns : List Node)
    (h : ∀ n ∈ ns, sectionStart n = none) : ns.foldl cursorStep cs0 = cs0 := by
  induction ns with
  | nil => rfl
  | cons n rest ih =>
    rw [List.foldl_cons, cursorStep_eq, h n (List.mem_cons_self _ _)]
    exact ih (fun m hm => h m (List.mem_cons_of_mem _ hm))

theorem sectionStart_anchor (n : Node) (h : n.isDownloadAnchor = true) :
    sectionStart n = none := by
  have h1 := cursorStep_anchor "" n h
  have h2 := cursorStep_anchor "x" n h
  rw [cursorStep_eq] at h1 h2
  cases hs : sectionStart n with
  | none => rfl
  | some v =>
    rw [hs] at h1 h2
    simp only [Option.getD_some] at h1 h2
    rw [h1] at h2
    exact absurd h2 (by decide)

theorem guarded_append_left (xs ys : List Node) (h : guarded (xs ++ ys) = true) :
    guarded xs = true := by
  induction xs with
  | nil => rfl
  | cons x rest ih =>
    rw [List.cons_append, guarded] at h
    rw [guarded]
    split
    · rfl
    · rename_i hs
      rw [if_neg hs] at h
      split
      · rename_i ha
        rw [if_pos ha] at h
        exact h
      · rename_i ha
        rw [if_neg ha] at h
        exact ih h

theorem guarded_append_right (xs ys : List Node) (hx : ∀ n ∈ xs, sectionStart n = none)
    (h : guarded (xs ++ ys) = true) : guarded ys = true := by
  induction xs with
  | nil => exact h
  | cons x rest ih =>
    rw [List.cons_append, guarded] at h
    have hs : ¬ ((sectionStart x).isSome = true) := by
      rw [hx x (List.mem_cons_self _ _)]
      simp
    rw [if_neg hs] at h
    split at h
    · simp at h
    · exact ih (fun n hn => hx n (List.mem_cons_of_mem _ hn)) h

theorem cursor_of_section (xs : List Node) (cs cs2 : String)
    (h : ∃ n ∈ xs, sectionStart n ≠ none) :
    xs.foldl cursorStep cs = xs.foldl cursorStep cs2 := by
  induction xs generalizing cs cs2 with
  | nil =>
    obtain ⟨n, hn, _⟩ := h
    simp at hn
  | cons x rest ih =>
    rw [List.foldl_cons, List.foldl_cons]
    by_cases hr : ∃ n ∈ rest, sectionStart n ≠ none
    · exact ih _ _ hr
    · obtain ⟨n, hn, hs⟩ := h
      rcases List.mem_cons.1 hn with hn | hn
      · subst hn
        have : cursorStep cs n = cursorStep cs2 n := by
          rw [cursorStep_eq, cursorStep_eq]
          cases hv : sectionStart n with
          | none => exact absurd hv hs
          | some v => rfl
        rw [this]
      · exact absurd ⟨n, hn, hs⟩ hr

mutual
theorem extract_indep : ∀ (n : Node) (cs cs2 : String), guarded (preorder n) = true →
    (extractDownloadLinks n cs).1 = (extractDownloadLinks n cs2).1
  | .mk type data attr children, cs, cs2, h => by
    have ih := childLoop_indep children [] cs cs2
    rw [preorder, guarded] at h
    by_cases hn : Node.isDownloadAnchor (.mk type data attr children) = true
    · exfalso
      rw [sectionStart_anchor _ hn] at h
      simp [hn] at h
    · unfold extractDownloadLinks
      simp only [hn, Bool.false_eq_true, if_false]
      rw [cursorStep_eq, cursorStep_eq]
      cases hs : sectionStart (.mk type data attr children) with
      | some v => rfl
      | none =>
        rw [hs] at h
        simp only [Option.isSome_none, Bool.false_eq_true, if_false, hn] at h
        exact ih h
theorem childLoop_indep : ∀ (ch : List Node) (lnks : List download) (cs cs2 : String),
    guarded (preorderList ch) = true →
      (childLoop ch lnks cs).1 = (childLoop ch lnks cs2).1
  | [], lnks, cs, cs2, _ => by
    unfold childLoop
    rfl
  | cn :: rest, lnks, cs, cs2, h => by
    rw [preorderList] at h
    have h1 := extract_indep cn cs cs2 (guarded_append_left _ _ h)
    unfold childLoop
    rw [h1]
    by_cases hsec : ∃ n ∈ preorder cn, sectionStart n ≠ none
    · have h2 : (extractDownloadLinks cn cs).2 = (extractDownloadLinks cn cs2).2 := by
        rw [(extract_sublist cn cs).1, (extract_sublist cn cs2).1]
        exact cursor_of_section _ _ _ hsec
      rw [h2]
    · push_neg at hsec
      exact childLoop_indep rest _ _ _ (guarded_append_right _ _ hsec h)
end
/-! ## Claims on the installer -/

/-- C14 as stated fails on `archiveNoParent`: the first entry of another type is at
position 2, but the file of entry 0 cannot be created (its directory does not exist),
so extraction aborts at position 0 and the directory of entry 1 is never created. -/
theorem extract_aborts_earlier :
    (installVersion 0o022 (.archive archiveNoParent false) "/usr/local/go" fsHost).2 =
        Outcome.createFailed ∧
      (installVersion 0o022 (.archive archiveNoParent false) "/usr/local/go" fsHost).2 ≠
        Outcome.unknownType ∧
      (installVersion 0o022 (.archive archiveNoParent false) "/usr/local/go" fsHost).1
        "/usr/local/go/bin" = none := by
  decide

/-- C14, amended: when the first entry that is neither a directory nor a regular file is
`bad`, after the entries `pre`, extraction ends in a panic and the filesystem is the one
left by processing exactly `pre` (nothing is created for `bad` or a later entry); when
every entry of `pre` is processed without error, the panic is the one for the unknown
type, and the directory or file of every entry of `pre` exists. -/
theorem extract_unknown_type (umask : Nat) (df : String) (pre post : List TarEntry) (bad : TarEntry)
    (nextErr : Bool) (fs : FS)
    (hpre : ∀ e ∈ pre, e.header.Typeflag = TypeDir ∨ e.header.Typeflag = TypeReg)
    (hbad : bad.header.Typeflag ≠ TypeDir ∧ bad.header.Typeflag ≠ TypeReg) :
    (extractLoop umask df (pre ++ bad :: post) nextErr fs).1 = (extractLoop umask df pre false fs).1 ∧
      (extractLoop umask df (pre ++ bad :: post) nextErr fs).2 ≠ Outcome.installed ∧
      ((extractLoop umask df pre false fs).2 = Outcome.installed →
        (extractLoop umask df (pre ++ bad :: post) nextErr fs).2 = Outcome.unknownType ∧
        ∀ e ∈ pre,
          (e.header.Typeflag = TypeDir →
            isDirAt (extractLoop umask df (pre ++ bad :: post) nextErr fs).1
              (joinName df e.header.Name) = true) ∧
          (e.header.Typeflag = TypeReg →
            isFileAt (extractLoop umask df (pre ++ bad :: post) nextErr fs).1
              (joinName df e.header.Name) = true)) := by
  have h := extractLoop_unknown umask df pre post bad nextErr fs hpre hbad
  by_cases hi : (extractLoop umask df pre false fs).2 = Outcome.installed
  · rw [if_pos hi] at h
    rw [h]
    refine ⟨rfl, by simp, fun _ => ⟨rfl, ?_⟩⟩
    exact extractLoop_created umask df pre fs hi
  · rw [if_neg hi] at h
    rw [h]
    exact ⟨rfl, hi, fun h2 => absurd h2 hi⟩

/-- C14 on a directory and a file followed by a symbolic link and one more file. -/
theorem extract_unknown_type_witness :
    (extractLoop 0o022 "/usr/local" (archiveDirFile ++ symlinkEntry "go/gofmt" ::
        [fileEntry "go/LICENSE" 0o644 [66]]) false fsCleared).1 =
        (extractLoop 0o022 "/usr/local" archiveDirFile false fsCleared).1 ∧
      (extractLoop 0o022 "/usr/local" (archiveDirFile ++ symlinkEntry "go/gofmt" ::
        [fileEntry "go/LICENSE" 0o644 [66]]) false fsCleared).2 ≠ Outcome.installed ∧
      ((extractLoop 0o022 "/usr/local" archiveDirFile false fsCleared).2 = Outcome.installed →
        (extractLoop 0o022 "/usr/local" (archiveDirFile ++ symlinkEntry "go/gofmt" ::
          [fileEntry "go/LICENSE" 0o644 [66]]) false fsCleared).2 = Outcome.unknownType ∧
        ∀ e ∈ archiveDirFile,
          (e.header.Typeflag = TypeDir →
            isDirAt (extractLoop 0o022 "/usr/local" (archiveDirFile ++ symlinkEntry "go/gofmt" ::
              [fileEntry "go/LICENSE" 0o644 [66]]) false fsCleared).1
              (joinName "/usr/local" e.header.Name) = true) ∧
          (e.header.Typeflag = TypeReg →
            isFileAt (extractLoop 0o022 "/usr/local" (archiveDirFile ++ symlinkEntry "go/gofmt" ::
              [fileEntry "go/LICENSE" 0o644 [66]]) false fsCleared).1
              (joinName "/usr/local" e.header.Name) = true)) :=
  extract_unknown_type 0o022 "/usr/local" archiveDirFile [fileEntry "go/LICENSE" 0o644 [66]]
    (symlinkEntry "go/gofmt") false fsCleared (by decide) (by decide)

/-- C15 as stated fails. With umask 0 the directory of `archiveDirFile`, recorded with
mode `0700`, is created with the permission bits `0755`; with umask `022` the file of
`archiveWritable`, recorded with mode `0666`, is created with the permission bits
`0644`; and on `archiveNested`, whose directory lies two levels below the parent of the
root, `Mkdir` fails and neither the directory nor the file is created. -/
theorem extract_dir_mode_fixed :
    ((installVersion 0 (.archive archiveDirFile false) "/usr/local/go" fsHost).1
        "/usr/local/go").map FsObj.permBits = some 0o755 ∧
      (archiveDirFile.map (fun e => e.header.Mode)).head? = some 0o700 ∧
      ((installVersion 0o022 (.archive archiveWritable false) "/usr/local/go" fsHost).1
        "/usr/local/go/VERSION").map FsObj.permBits = some 0o644 ∧
      (archiveWritable.map (fun e => e.header.Mode)).getLast? = some 0o666 ∧
      (installVersion 0 (.archive archiveNested false) "/usr/local/go" fsHost).2 =
        Outcome.mkdirFailed ∧
      (installVersion 0 (.archive archiveNested false) "/usr/local/go" fsHost).1
        "/usr/local/go/bin" = none ∧
      (installVersion 0 (.archive archiveNested false) "/usr/local/go" fsHost).1
        "/usr/local/go/bin/gofmt" = none := by
  decide

/-- C15, amended: for a directory entry `D` and a regular file entry `F` directly under
it, when neither path exists yet and the parent of the directory does, extraction ends
normally; the directory is at `df` joined with its name and its permission bits are
those of `0755` without the bits of the umask, whatever mode the archive records; the
file is at `df` joined with its name, its content is the payload and its permission
bits are those recorded in its entry without the bits of the umask (under umask 0,
exactly the recorded ones); no other path changes. -/
theorem extract_dir_then_file (umask : Nat) (df : String) (D F : TarEntry) (fs : FS)
    (hD : D.header.Typeflag = TypeDir) (hF : F.header.Typeflag = TypeReg)
    (hread : F.readErr = false)
    (hdnew : fs (joinName df D.header.Name) = none)
    (hfnew : fs (joinName df F.header.Name) = none)
    (hparent : isDirAt fs (pathDir (joinName df D.header.Name)) = true)
    (hunder : pathDir (joinName df F.header.Name) = joinName df D.header.Name)
    (hne : joinName df F.header.Name ≠ joinName df D.header.Name) :
    (extractLoop umask df [D, F] false fs).2 = Outcome.installed ∧
      isDirAt (extractLoop umask df [D, F] false fs).1 (joinName df D.header.Name) = true ∧
      ((extractLoop umask df [D, F] false fs).1 (joinName df D.header.Name)).map
          FsObj.permBits = some (0o755 &&& (0o777 ^^^ (umask % 512))) ∧
      (extractLoop umask df [D, F] false fs).1 (joinName df F.header.Name) =
        some (.file (createMode umask (syscallMode (F.header.Mode % 2 ^ 32))) F.payload) ∧
      ((extractLoop umask df [D, F] false fs).1 (joinName df F.header.Name)).map
          FsObj.permBits = some ((F.header.Mode % 512) &&& (0o777 ^^^ (umask % 512))) ∧
      (umask % 512 = 0 →
        ((extractLoop umask df [D, F] false fs).1 (joinName df D.header.Name)).map
            FsObj.permBits = some 0o755 ∧
          ((extractLoop umask df [D, F] false fs).1 (joinName df F.header.Name)).map
            FsObj.permBits = some (F.header.Mode % 512)) ∧
      ∀ p, p ≠ joinName df D.header.Name → p ≠ joinName df F.header.Name →
        (extractLoop umask df [D, F] false fs).1 p = fs p := by
  have hFd : F.header.Typeflag ≠ TypeDir := by rw [hF]; decide
  have hmk : mkdir umask fs (joinName df D.header.Name) 0o755 =
      some (fs.set (joinName df D.header.Name)
        (.dir (createMode umask (syscallMode 0o755)))) := by
    unfold mkdir
    rw [hdnew]
    simp only []
    unfold isDirAt at hparent
    split at hparent
    · rfl
    · simp at hparent
  have hop : openFile umask
      (fs.set (joinName df D.header.Name) (.dir (createMode umask (syscallMode 0o755))))
      (joinName df F.header.Name) (F.header.Mode % 2 ^ 32) =
      some ((fs.set (joinName df D.header.Name)
          (.dir (createMode umask (syscallMode 0o755)))).set
        (joinName df F.header.Name)
        (.file (createMode umask (syscallMode (F.header.Mode % 2 ^ 32))) [])) := by
    unfold openFile
    have h1 : (fs.set (joinName df D.header.Name)
        (.dir (createMode umask (syscallMode 0o755)))) (joinName df F.header.Name) = none := by
      simp [FS.set, hne, hfnew]
    have h2 : (fs.set (joinName df D.header.Name)
        (.dir (createMode umask (syscallMode 0o755))))
        (pathDir (joinName df F.header.Name)) =
        some (.dir (createMode umask (syscallMode 0o755))) := by
      simp [FS.set, hunder]
    rw [h1, h2]
  have hwr : writeFile ((fs.set (joinName df D.header.Name)
          (.dir (createMode umask (syscallMode 0o755)))).set
        (joinName df F.header.Name)
        (.file (createMode umask (syscallMode (F.header.Mode % 2 ^ 32))) []))
      (joinName df F.header.Name) F.payload =
      ((fs.set (joinName df D.header.Name)
          (.dir (createMode umask (syscallMode 0o755)))).set
        (joinName df F.header.Name)
        (.file (createMode umask (syscallMode (F.header.Mode % 2 ^ 32))) [])).set
        (joinName df F.header.Name)
        (.file (createMode umask (syscallMode (F.header.Mode % 2 ^ 32))) F.payload) := by
    unfold writeFile
    simp [FS.set]
  have hrun : extractLoop umask df [D, F] false fs =
      (((fs.set (joinName df D.header.Name)
          (.dir (createMode umask (syscallMode 0o755)))).set
        (joinName df F.header.Name)
        (.file (createMode umask (syscallMode (F.header.Mode % 2 ^ 32))) [])).set
        (joinName df F.header.Name)
        (.file (createMode umask (syscallMode (F.header.Mode % 2 ^ 32))) F.payload),
        Outcome.installed) := by
    rw [extractLoop, if_pos hD, hmk]
    simp only []
    rw [extractLoop, if_neg hFd, if_pos hF, hop]
    simp only [hread, Bool.false_eq_true, if_false]
    rw [hwr, extractLoop]
    simp
  have hdirbits : createMode umask (syscallMode 0o755) % 512 =
      0o755 &&& (0o777 ^^^ (umask % 512)) := by
    have := createMode_permBits umask 0o755
    simpa using this
  have hd : (extractLoop umask df [D, F] false fs).1 (joinName df D.header.Name) =
      some (.dir (createMode umask (syscallMode 0o755))) := by
    rw [hrun]
    simp [FS.set, Ne.symm hne]
  have hf : (extractLoop umask df [D, F] false fs).1 (joinName df F.header.Name) =
      some (.file (createMode umask (syscallMode (F.header.Mode % 2 ^ 32))) F.payload) := by
    rw [hrun]
    simp [FS.set]
  have hdp : ((extractLoop umask df [D, F] false fs).1 (joinName df D.header.Name)).map
      FsObj.permBits = some (0o755 &&& (0o777 ^^^ (umask % 512))) := by
    rw [hd, Option.map_some', FsObj.permBits, hdirbits]
  have hfp : ((extractLoop umask df [D, F] false fs).1 (joinName df F.header.Name)).map
      FsObj.permBits = some ((F.header.Mode % 512) &&& (0o777 ^^^ (umask % 512))) := by
    rw [hf, Option.map_some', FsObj.permBits, createMode_permBits]
  refine ⟨by rw [hrun], ?_, hdp, hf, hfp, ?_, ?_⟩
  · unfold isDirAt
    rw [hd]
  · intro h0
    refine ⟨?_, ?_⟩
    · rw [hdp]
      have := maskOff_zero 0o755 umask h0
      simpa using this
    · rw [hfp, maskOff_zero _ _ h0]
  · intro p h1 h2
    rw [hrun]
    simp [FS.set, h1, h2]

/-- C15 on the archive `archiveWritable` under `/usr/local`, with umask `022`. -/
theorem extract_dir_then_file_witness :
    (extractLoop 0o022 "/usr/local"
        [dirEntry "go" 0o755, fileEntry "go/VERSION" 0o666 [103, 111]] false fsCleared).2 =
        Outcome.installed ∧
      isDirAt (extractLoop 0o022 "/usr/local"
        [dirEntry "go" 0o755, fileEntry "go/VERSION" 0o666 [103, 111]] false fsCleared).1
        (joinName "/usr/local" (dirEntry "go" 0o755).header.Name) = true ∧
      ((extractLoop 0o022 "/usr/local"
        [dirEntry "go" 0o755, fileEntry "go/VERSION" 0o666 [103, 111]] false fsCleared).1
        (joinName "/usr/local" (dirEntry "go" 0o755).header.Name)).map FsObj.permBits =
        some (0o755 &&& (0o777 ^^^ (0o022 % 512))) ∧
      (extractLoop 0o022 "/usr/local"
        [dirEntry "go" 0o755, fileEntry "go/VERSION" 0o666 [103, 111]] false fsCleared).1
          (joinName "/usr/local" (fileEntry "go/VERSION" 0o666 [103, 111]).header.Name) =
        some (.file (createMode 0o022 (syscallMode
            ((fileEntry "go/VERSION" 0o666 [103, 111]).header.Mode % 2 ^ 32)))
          (fileEntry "go/VERSION" 0o666 [103, 111]).payload) ∧
      ((extractLoop 0o022 "/usr/local"
        [dirEntry "go" 0o755, fileEntry "go/VERSION" 0o666 [103, 111]] false fsCleared).1
          (joinName "/usr/local"
            (fileEntry "go/VERSION" 0o666 [103, 111]).header.Name)).map FsObj.permBits =
        some (((fileEntry "go/VERSION" 0o666 [103, 111]).header.Mode % 512) &&&
          (0o777 ^^^ (0o022 % 512))) ∧
      (0o022 % 512 = 0 →
        ((extractLoop 0o022 "/usr/local"
          [dirEntry "go" 0o755, fileEntry "go/VERSION" 0o666 [103, 111]] false fsCleared).1
          (joinName "/usr/local" (dirEntry "go" 0o755).header.Name)).map FsObj.permBits =
            some 0o755 ∧
          ((extractLoop 0o022 "/usr/local"
            [dirEntry "go" 0o755, fileEntry "go/VERSION" 0o666 [103, 111]] false
            fsCleared).1
            (joinName "/usr/local"
              (fileEntry "go/VERSION" 0o666 [103, 111]).header.Name)).map FsObj.permBits =
            some ((fileEntry "go/VERSION" 0o666 [103, 111]).header.Mode % 512)) ∧
      ∀ p, p ≠ joinName "/usr/local" (dirEntry "go" 0o755).header.Name →
        p ≠ joinName "/usr/local" (fileEntry "go/VERSION" 0o666 [103, 111]).header.Name →
        (extractLoop 0o022 "/usr/local"
          [dirEntry "go" 0o755, fileEntry "go/VERSION" 0o666 [103, 111]] false fsCleared).1 p =
          fsCleared p :=
  extract_dir_then_file 0o022 "/usr/local" (dirEntry "go" 0o755)
    (fileEntry "go/VERSION" 0o666 [103, 111]) fsCleared (by decide) (by decide) (by decide)
    (by decide) (by decide) (by decide) (by decide) (by decide)

/-- C18: when the fetch fails the filesystem is unchanged; when `os.RemoveAll` accepts the
installation root, extraction runs on the filesystem without the root, so after a body
that is not gzip nothing is left at a path `p` of the root's tree, and after an archive,
however its processing ends, `p` is empty or is the path of an entry of the archive. -/
theorem install_removes_root (umask : Nat) (GOROOT p : String) (fs : FS)
    (hrm : endsWithDot GOROOT.toList = false) (hp : inTree GOROOT p = true) :
    installVersion umask .getError GOROOT fs = (fs, Outcome.getFailed) ∧
      (installVersion umask .notGzip GOROOT fs).2 = Outcome.gzipFailed ∧
      (installVersion umask .notGzip GOROOT fs).1 p = none ∧
      ∀ entries nextErr,
        installVersion umask (.archive entries nextErr) GOROOT fs =
            extractLoop umask (pathDir GOROOT) entries nextErr
              (fun q => if inTree GOROOT q then none else fs q) ∧
          ((installVersion umask (.archive entries nextErr) GOROOT fs).1 p = none ∨
            ∃ e ∈ entries, p = joinName (pathDir GOROOT) e.header.Name) := by
  have hne : GOROOT ≠ "" := by
    intro e
    rw [e] at hp
    simp [inTree] at hp
  have hremove : removeAll fs GOROOT =
      some (fun q => if inTree GOROOT q then none else fs q) := by
    unfold removeAll
    rw [if_neg hne, hrm]
    simp
  refine ⟨rfl, ?_, ?_, ?_⟩
  · unfold installVersion
    simp only [hremove]
  · unfold installVersion
    simp only [hremove, hp, if_true]
  · intro entries nextErr
    have hrun : installVersion umask (.archive entries nextErr) GOROOT fs =
        extractLoop umask (pathDir GOROOT) entries nextErr
          (fun q => if inTree GOROOT q then none else fs q) := by
      unfold installVersion
      simp only [hremove]
    refine ⟨hrun, ?_⟩
    rw [hrun]
    rcases extractLoop_touches umask (pathDir GOROOT) entries nextErr
      (fun q => if inTree GOROOT q then none else fs q) p with h | h
    · left
      rw [h]
      simp [hp]
    · exact Or.inr h

/-- C18 on `fsHost`, the root `/usr/local/go` and its file `VERSION`. -/
theorem install_removes_root_witness :
    installVersion 0o022 .getError "/usr/local/go" fsHost = (fsHost, Outcome.getFailed) ∧
      (installVersion 0o022 .notGzip "/usr/local/go" fsHost).2 = Outcome.gzipFailed ∧
      (installVersion 0o022 .notGzip "/usr/local/go" fsHost).1 "/usr/local/go/VERSION" = none ∧
      ∀ entries nextErr,
        installVersion 0o022 (.archive entries nextErr) "/usr/local/go" fsHost =
            extractLoop 0o022 (pathDir "/usr/local/go") entries nextErr
              (fun q => if inTree "/usr/local/go" q then none else fsHost q) ∧
          ((installVersion 0o022 (.archive entries nextErr) "/usr/local/go" fsHost).1
              "/usr/local/go/VERSION" = none ∨
            ∃ e ∈ entries,
              "/usr/local/go/VERSION" = joinName (pathDir "/usr/local/go") e.header.Name) :=
  install_removes_root 0o022 "/usr/local/go" "/usr/local/go/VERSION" fsHost (by decide) (by decide)

/-! ## Claims on the cursor and the order of the output -/

/-- C16 as stated fails on `docEarly`, where a download is visited before the first
section start: the first pass leaves the cursor `archive` behind, and a second pass on
the same document flags that download as archived. -/
theorem second_pass_differs :
    guarded (preorder docEarly) = false ∧
      (extractDownloadLinks docEarly "").2 = "archive" ∧
      (extractDownloadLinks docEarly (extractDownloadLinks docEarly "").2).1 ≠
        (extractDownloadLinks docEarly "").1 ∧
      ((extractDownloadLinks docEarly "").1.map (fun d => d.Archive)) = [false, true] ∧
      ((extractDownloadLinks docEarly (extractDownloadLinks docEarly "").2).1.map
        (fun d => d.Archive)) = [true, true] := by
  decide

/-- C16, amended: the cursor is a package-level variable, and a second pass starts from
the cursor the first one left. The second pass yields the same catalog and leaves the
same cursor as the first whenever no download anchor is visited before the first section
start, and also when the traversal meets no section start at all; for every document it
yields the same entries in the same order up to their section flags and leaves the same
cursor as the first, so that every later pass repeats the second. -/
theorem second_pass_up_to_flags (doc : Node) (cs0 : String) :
    (guarded (preorder doc) = true →
        extractDownloadLinks doc (extractDownloadLinks doc cs0).2 =
          extractDownloadLinks doc cs0) ∧
      (extractDownloadLinks doc (extractDownloadLinks doc cs0).2 =
          extractDownloadLinks doc cs0 ∨
        ∃ n ∈ preorder doc, sectionStart n ≠ none) ∧
      (extractDownloadLinks doc (extractDownloadLinks doc cs0).2).1.map unflag =
        (extractDownloadLinks doc cs0).1.map unflag ∧
      (extractDownloadLinks doc (extractDownloadLinks doc cs0).2).2 =
        (extractDownloadLinks doc cs0).2 ∧
      extractDownloadLinks doc
          (extractDownloadLinks doc (extractDownloadLinks doc cs0).2).2 =
        extractDownloadLinks doc (extractDownloadLinks doc cs0).2 := by
  have hsettle : (extractDownloadLinks doc (extractDownloadLinks doc cs0).2).2 =
      (extractDownloadLinks doc cs0).2 := by
    rw [(extract_sublist doc _).1, (extract_sublist doc cs0).1]
    exact cursor_settles cs0 (preorder doc)
  refine ⟨?_, ?_, extract_unflag doc _ _, hsettle, by rw [hsettle]⟩
  · intro hg
    exact Prod.ext (extract_indep doc _ _ hg) hsettle
  · by_cases h : ∀ n ∈ preorder doc, sectionStart n = none
    · left
      have : (extractDownloadLinks doc cs0).2 = cs0 := by
        rw [(extract_sublist doc cs0).1]
        exact cursor_unchanged cs0 (preorder doc) h
      rw [this]
    · right
      push_neg at h
      exact h

/-- C16 on `docDropped`, whose downloads all stand under a section: the second pass
repeats the first. -/
theorem second_pass_up_to_flags_witness :
    guarded (preorder docDropped) = true ∧
      extractDownloadLinks docDropped (extractDownloadLinks docDropped "").2 =
        extractDownloadLinks docDropped "" :=
  ⟨by decide, (second_pass_up_to_flags docDropped "").1 (by decide)⟩

/-- C17 as stated fails on `docSection`: the `section` element has the id `archive`,
which matches the pattern, and the cursor stays empty; the download under it is not
flagged as archived. -/
theorem section_element_ignored :
    sectionRE "archive" = true ∧
      (extractDownloadLinks docSection "").2 = "" ∧
      (extractDownloadLinks docSection "").1.map (fun d => d.Archive) = [false] := by
  decide

/-- C17, amended: for an element node whose tag is `h2` or `div` and whose last `id`
attribute matching the section pattern is `a`, visiting it sets the cursor to the value
of `a`: the children are traversed under that cursor whatever the cursor was, and a
download anchor that is its first child is tagged by it. For an element with another tag
the cursor stays as it was. -/
theorem section_start_h2_div (tag : String) (attr : List Attribute) (children : List Node)
    (cs href : String) (a : Attribute)
    (htag : tag = "h2" ∨ tag = "div")
    (ha : (attr.filter (fun x => x.Key = "id" ∧ sectionRE x.Val)).getLast? = some a) :
    cursorStep cs (.mk .ElementNode tag attr children) = a.Val ∧
      extractDownloadLinks (.mk .ElementNode tag attr children) cs =
        childLoop children [] a.Val ∧
      ((extractDownloadLinks
          (.mk .ElementNode tag attr (downloadAnchor href :: children)) cs).1).head? =
        some { fromLink href with
          Archive := isArchive a.Val, Featured := isFeaturedRE a.Val,
          Unstable := isUnstableRE a.Val } ∧
      ∀ tag2 : String, tag2 ≠ "h2" → tag2 ≠ "div" →
        cursorStep cs (.mk .ElementNode tag2 attr children) = cs := by
  have hstep : ∀ ch : List Node, cursorStep cs (.mk .ElementNode tag attr ch) = a.Val := by
    intro ch
    rw [cursorStep_eq]
    unfold sectionStart
    simp only [Node.type, Node.data, Node.attr, htag, true_and, if_true, ha, Option.map_some',
      Option.getD_some]
  have hnot : ∀ ch : List Node,
      Node.isDownloadAnchor (.mk .ElementNode tag attr ch) = false := by
    intro ch
    unfold Node.isDownloadAnchor
    rcases htag with h | h <;> subst h <;> simp [Node.data]
  have hrun : ∀ ch : List Node, extractDownloadLinks (.mk .ElementNode tag attr ch) cs =
      childLoop ch [] a.Val := by
    intro ch
    unfold extractDownloadLinks
    rw [hnot ch, hstep ch]
    simp
  refine ⟨hstep children, hrun children, ?_, ?_⟩
  · rw [hrun]
    have hanchor : extractDownloadLinks (downloadAnchor href) a.Val =
        ([{ fromLink href with
            Archive := isArchive a.Val, Featured := isFeaturedRE a.Val,
            Unstable := isUnstableRE a.Val }], a.Val) := by
      have hd : isDownloadRE "download" = true := by decide
      unfold downloadAnchor element extractDownloadLinks
      simp [Node.isDownloadAnchor, Node.type, Node.data, Node.attr, anchorLoop, hd, entryAt,
        cursorStep]
    unfold childLoop
    rw [hanchor]
    obtain ⟨_, kept, hk, _⟩ := childLoop_sublist children
      (mergeBatch [] [{ fromLink href with
        Archive := isArchive a.Val, Featured := isFeaturedRE a.Val,
        Unstable := isUnstableRE a.Val }]) a.Val
    simp only [] at hk ⊢
    rw [hk]
    simp [mergeBatch]
  · intro tag2 h1 h2
    unfold cursorStep
    simp [Node.data, h1, h2]

/-- C17 on the `div` with id `archive` of `docArchive`. -/
theorem section_start_h2_div_witness :
    cursorStep "" (.mk .ElementNode "div" [⟨"", "id", "archive"⟩] []) = "archive" ∧
      extractDownloadLinks (.mk .ElementNode "div" [⟨"", "id", "archive"⟩] []) "" =
        childLoop [] [] "archive" ∧
      ((extractDownloadLinks
          (.mk .ElementNode "div" [⟨"", "id", "archive"⟩]
            (downloadAnchor "/dl/go1.18.linux-amd64.tar.gz" :: [])) "").1).head? =
        some { fromLink "/dl/go1.18.linux-amd64.tar.gz" with
          Archive := isArchive "archive", Featured := isFeaturedRE "archive",
          Unstable := isUnstableRE "archive" } ∧
      ∀ tag2 : String, tag2 ≠ "h2" → tag2 ≠ "div" →
        cursorStep "" (.mk .ElementNode tag2 [⟨"", "id", "archive"⟩] []) = "" :=
  section_start_h2_div "div" [⟨"", "id", "archive"⟩] [] "" "/dl/go1.18.linux-amd64.tar.gz"
    ⟨"", "id", "archive"⟩ (Or.inr rfl) (by decide)

/-- C20: the output is a sublist of the entries of the download anchors met by the
traversal, taken in pre-order, each under the cursor current at its anchor: entries are
omitted, never invented, altered or reordered. -/
theorem extract_is_sublist (doc : Node) (cs : String) :
    ((extractDownloadLinks doc cs).1).Sublist (anchorEntries cs (preorder doc)) :=
  (extract_sublist doc cs).2

end Gu
